import Mathlib

/-!
# flavor-convert: template selection and PCR projection

A shallow embedding of `src/main.go` (the legacy flavor-part converter) and
theorems about it.

Conventions of the embedding

* A Go `string` is a `String`, a Go `int` is an `Int`, a Go `bool` is a `Bool`.
* A Go slice or pointer that the code tests against `nil` (or with
  `reflect.Value.IsZero`) is an `Option`; a slice that is only appended to or
  ranged over is a `List`.
* A Go map is an association list with one pair per key.  The order in which a
  `range` statement visits a map is not fixed by the language.  The legacy map
  of an entry is given as the list of its banks in the order they are visited;
  the rule index `pcrsmap` is built by the code, so the order in which each
  `range pcrsmap` visits it is an explicit argument (`RangeOrder`), any
  permutation of its pairs.
* An index out of range (a run-time panic) is `none`.
* The type declarations of the package (`FlavorTemplate`, `OldFlavorPart`,
  `PcrRules`, `PcrLogs`, ...) are not part of `main.go`; the structures below
  carry exactly the fields that `main.go` reads or writes, under the names it
  uses.
-/

namespace FlavorConvert

/-! ## Data model -/

/-- Modelled from the spec: the target PCR of a rule, and of a projected slot,
`{bank, index}`; the Go type declaration is not in `main.go`. -/
structure PCR where
  Index : Int
  Bank : String
deriving DecidableEq, Repr

/-- Modelled from the spec: the EventlogEquals spec of a rule (its exclude-tag
list, which may be nil). -/
structure RuleEventlogEquals where
  ExcludingTags : Option (List String)
deriving DecidableEq, Repr

/-- Modelled from the spec: one PCR rule of a template.  `EventlogEquals` and
`EventlogIncludes` are `none` when `reflect.ValueOf(...).IsZero()` holds. -/
structure PcrRule where
  Pcr : PCR
  PcrMatches : Bool
  EventlogEquals : Option RuleEventlogEquals
  EventlogIncludes : Option (List String)
deriving DecidableEq, Repr

/-- The Go type `PcrRules`: an ordered rule list. -/
abbrev PcrRules := List PcrRule

/-- Modelled from the spec: the per-category section of a template. -/
structure FlavorPart where
  PcrRules : PcrRules
deriving DecidableEq, Repr

/-- Modelled from the spec: the three optional per-category sections. -/
structure FlavorParts where
  Platform : Option FlavorPart
  OS : Option FlavorPart
  HostUnique : Option FlavorPart
deriving DecidableEq, Repr

/-- Modelled from the spec: a flavor template. -/
structure FlavorTemplate where
  ID : String
  Label : String
  Condition : List String
  FlavorParts : FlavorParts
deriving DecidableEq, Repr

/-- Modelled from the spec: a legacy event entry. -/
structure EventLog where
  DigestType : String
  Value : String
  Label : String
deriving DecidableEq, Repr

/-- Modelled from the spec: a legacy PCR entry, a measurement value and an
optional ordered event list. -/
structure PcrEx where
  Value : String
  Event : Option (List EventLog)
deriving DecidableEq, Repr

/-- Modelled from the spec: an event of the new schema. -/
structure NewEventLog where
  TypeID : String
  Measurement : String
  Tags : List String
deriving DecidableEq, Repr

/-- Modelled from the spec: the equals block of a projected slot. -/
structure EventlogEquals where
  Events : Option (List NewEventLog)
  ExcludeTags : Option (List String)
deriving DecidableEq, Repr

/-- Modelled from the spec: a projected slot of the new schema. -/
structure PcrLogs where
  PCR : PCR
  Measurement : String
  PCRMatches : Bool
  EventlogEqual : Option EventlogEquals
  EventlogIncludes : Option (List NewEventLog)
deriving DecidableEq, Repr

/-- The zero value of `PcrLogs`, as produced by `make([]PcrLogs, n)`. -/
def PcrLogs.zero : PcrLogs :=
  { PCR := { Index := 0, Bank := "" }, Measurement := "", PCRMatches := false,
    EventlogEqual := none, EventlogIncludes := none }

/-- Modelled from the spec: one hardware feature flag block. -/
structure FeatureFlag where
  Enabled : Bool
deriving DecidableEq, Repr

/-- Modelled from the spec: the feature block; each feature may be absent. -/
structure Feature where
  CBNT : Option FeatureFlag
  SUEFI : Option FeatureFlag
deriving DecidableEq, Repr

/-- Modelled from the spec: the hardware block of a flavor record. -/
structure Hardware where
  Feature : Feature
deriving DecidableEq, Repr

/-- Modelled from the spec: the meta description block. -/
structure Description where
  FlavorPart : String
  FlavorTemplateIds : List String
  CbntEnabled : Bool
  SuefiEnabled : Bool
deriving DecidableEq, Repr

/-- Modelled from the spec: the meta block. -/
structure Meta where
  Description : Description
deriving DecidableEq, Repr

/-- The legacy PCR map of one bank: PCR-index string to entry. -/
abbrev PcrMap := List (String × PcrEx)

/-- Modelled from the spec: a flavor record.  `Pcrs` is the legacy map
bank name to `PcrMap` (nil when absent); `PcrLogs` is the projected slice. -/
structure Flavor where
  Meta : Meta
  Hardware : Option Hardware
  Pcrs : Option (List (String × PcrMap))
  PcrLogs : Option (List PcrLogs)
deriving DecidableEq, Repr

/-- Modelled from the spec: a signed flavor entry. -/
structure SignedFlavor where
  Flavor : Flavor
  Signature : String
deriving DecidableEq, Repr

/-! ## Template selection (`findTemplatesToApply`) -/

/-- The static table `flavorTemplateConditions` of `main.go`. -/
def flavorTemplateConditions : List (String × String) :=
  [ ("//host_info/tboot_installed//*[text()='true']",
      "//meta/description/tboot_installed//*[text()='true']"),
    ("//host_info/hardware_features/SUEFI/enabled//*[text()='true']",
      "//hardware/feature/SUEFI/enabled//*[text()='true']"),
    ("//host_info/hardware_features/cbnt/enabled//*[text()='true']",
      "//hardware/feature/CBNT/enabled//*[text()='true']"),
    ("//host_info/vendor//*[text()='Linux']", "//meta/vendor//*[text()='INTEL']"),
    ("//host_info/tpm_version//*[text()='2.0']",
      "//meta/description/tpm_version//*[text()='2.0']") ]

/-- The Go expression `flavorTemplateConditions[condition]`: the mapped query,
or the empty string (the zero value) for a key that is not in the table. -/
def conditionQuery (condition : String) : String :=
  (flavorTemplateConditions.lookup condition).getD ""

/-- The library calls made by `findTemplatesToApply`: `jsonquery.Parse` on the
document, `json.Unmarshal` into a fresh `FlavorTemplate`, and
`jsonquery.Query` (whose error is discarded by the caller; `none` is the nil
node).  They are arguments of the embedding. -/
structure JsonLib (Doc Node : Type) where
  Parse : String → Option Doc
  Unmarshal : String → Option FlavorTemplate
  Query : Doc → String → Option Node

/-- The inner loop of `findTemplatesToApply` (lines 96-106) with the loop
variable `conditionEval` as an accumulator: each condition sets it to true,
and a nil query result sets it to false and breaks. -/
def conditionLoop {Doc Node : Type} (L : JsonLib Doc Node) (doc : Doc) :
    List String → Bool → Bool
  | [], conditionEval => conditionEval
  | condition :: rest, _ =>
    match L.Query doc (conditionQuery condition) with
    | none => false
    | some _ => conditionLoop L doc rest true

/-- The outer loop of `findTemplatesToApply` (lines 82-110) over the raw
templates, with `filteredTemplates` as an accumulator. -/
def templateLoop {Doc Node : Type} (L : JsonLib Doc Node) (doc : Doc) :
    List String → List FlavorTemplate → Except String (List FlavorTemplate)
  | [], filteredTemplates => .ok filteredTemplates
  | template :: rest, filteredTemplates =>
    match L.Unmarshal template with
    | none => .error "Error in unmarshaling the flavor template"
    | some flavorTemplate =>
      if flavorTemplate.Label = "" then
        templateLoop L doc rest filteredTemplates
      else if conditionLoop L doc flavorTemplate.Condition false = true then
        templateLoop L doc rest (filteredTemplates ++ [flavorTemplate])
      else
        templateLoop L doc rest filteredTemplates

/-- The function `findTemplatesToApply` of `main.go`. -/
def findTemplatesToApply {Doc Node : Type} (L : JsonLib Doc Node)
    (oldFlavorPart : String) (defaultFlavorTemplates : List String) :
    Except String (List FlavorTemplate) :=
  match L.Parse oldFlavorPart with
  | none => .error "Error in parsing the old flavor part json"
  | some oldFlavorPartJson => templateLoop L oldFlavorPartJson defaultFlavorTemplates []

/-- The selection predicate the contract states: non-empty label, non-empty
condition list, every condition's translated query returns a node. -/
def Selected {Doc Node : Type} (L : JsonLib Doc Node) (doc : Doc)
    (t : FlavorTemplate) : Prop :=
  t.Label ≠ "" ∧ t.Condition ≠ [] ∧
    ∀ c ∈ t.Condition, (L.Query doc (conditionQuery c)).isSome = true

/-- The boolean test applied by the template loop to a parsed template. -/
def keeps {Doc Node : Type} (L : JsonLib Doc Node) (doc : Doc) (t : FlavorTemplate) : Bool :=
  decide (t.Label ≠ "") && conditionLoop L doc t.Condition false

/-! ## Meta flags, rule index and projection (`main`) -/

/-- Declarations of the package that `main.go` uses but does not contain: the
conversion `SHAAlgorithm(...)` applied to a bank name, and the method
`PcrIndex(i).String()` giving the key of PCR index `i` in a legacy bank. -/
structure Decls where
  SHAAlgorithm : String → String
  PcrIndexString : Int → String

/-- The condition of line 174: hardware block present, CBNT present and
enabled. -/
def cbntReported (flavor : SignedFlavor) : Bool :=
  match flavor.Flavor.Hardware with
  | none => false
  | some hw =>
    match hw.Feature.CBNT with
    | none => false
    | some f => f.Enabled

/-- The condition of line 176: hardware block present, SUEFI present and
enabled. -/
def suefiReported (flavor : SignedFlavor) : Bool :=
  match flavor.Flavor.Hardware with
  | none => false
  | some hw =>
    match hw.Feature.SUEFI with
    | none => false
    | some f => f.Enabled

/-- Assignment `....Flavor.Meta.Description.CbntEnabled = true`. -/
def setCbntEnabled (e : SignedFlavor) : SignedFlavor :=
  { e with Flavor := { e.Flavor with Meta := { e.Flavor.Meta with
      Description := { e.Flavor.Meta.Description with CbntEnabled := true } } } }

/-- Assignment `....Flavor.Meta.Description.SuefiEnabled = true`. -/
def setSuefiEnabled (e : SignedFlavor) : SignedFlavor :=
  { e with Flavor := { e.Flavor with Meta := { e.Flavor.Meta with
      Description := { e.Flavor.Meta.Description with SuefiEnabled := true } } } }

/-- Lines 174-178: the meta section update of the stored entry, decided on
the loop copy `flavor`. -/
def updateMeta (flavor : SignedFlavor) (stored : SignedFlavor) : SignedFlavor :=
  if cbntReported flavor = true then setCbntEnabled stored
  else if suefiReported flavor = true then setSuefiEnabled stored
  else stored

/-- Line 182: the signature of the stored entry is cleared. -/
def clearSignature (e : SignedFlavor) : SignedFlavor :=
  { e with Signature := "" }

/-- Line 191: append the template identifier to the stored entry. -/
def appendTemplateId (e : SignedFlavor) (id : String) : SignedFlavor :=
  { e with Flavor := { e.Flavor with Meta := { e.Flavor.Meta with
      Description := { e.Flavor.Meta.Description with
        FlavorTemplateIds := e.Flavor.Meta.Description.FlavorTemplateIds ++ [id] } } } }

/-- The map assignment `pcrsmap[k] = v`: replace the value of an existing
key, or add the pair. -/
def mapInsert (k : Int) (v : String) : List (Int × String) → List (Int × String)
  | [] => [(k, v)]
  | (k', v') :: rest =>
    if k' = k then (k, v) :: rest else (k', v') :: mapInsert k v rest

/-- The loops of lines 202-204, 208-210 and 214-216: the rule index
`pcrsmap`, PCR index to bank, built from a rule list. -/
def buildPcrsmap (rules : PcrRules) : List (Int × String) :=
  rules.foldl (fun pcrsmap r => mapInsert r.Pcr.Index r.Pcr.Bank pcrsmap) []

/-- Lines 195-218: the rule index and the ordered rule list chosen for the
category `flavorname`; both are empty when no branch applies. -/
def ruleIndex (flavorname : String) (template : FlavorTemplate) :
    List (Int × String) × PcrRules :=
  match decide (flavorname = "PLATFORM"), template.FlavorParts.Platform with
  | true, some part => (buildPcrsmap part.PcrRules, part.PcrRules)
  | _, _ =>
    match decide (flavorname = "OS"), template.FlavorParts.OS with
    | true, some part => (buildPcrsmap part.PcrRules, part.PcrRules)
    | _, _ =>
      match decide (flavorname = "HOST_UNIQUE"), template.FlavorParts.HostUnique with
      | true, some part => (buildPcrsmap part.PcrRules, part.PcrRules)
      | _, _ => ([], [])

/-- Lines 253-255 and 266-268: one legacy event translated; the tag list is
`append(nil, label)`. -/
def newEvent (oldEvents : EventLog) : NewEventLog :=
  { Tags := [] ++ [oldEvents.Label], Measurement := oldEvents.Value,
    TypeID := oldEvents.DigestType }

/-- Lines 250-256 and 263-269: the slice `newTpmEvents` after the loop over
the legacy event list. -/
def newTpmEvents (events : List EventLog) : List NewEventLog :=
  events.map newEvent

/-- Lines 244-257: the block `new(EventlogEquals)` with the exclude-tag list
copied when it is not nil and the translated events. -/
def equalsBlock (spec : RuleEventlogEquals) (events : List EventLog) : EventlogEquals :=
  { ExcludeTags := if spec.ExcludingTags.isSome then spec.ExcludingTags else none,
    Events := some (newTpmEvents events) }

/-- Lines 236-273: the writes to `newFlavorPcrs[index]` when the legacy bank
has the entry `expectedPcrEx`; `rule` is `rules[index]` and `slot` the
previous content of the slot. -/
def writeSlot (bank : String) (mapIndex : Int) (expectedPcrEx : PcrEx)
    (rule : PcrRule) (slot : PcrLogs) : PcrLogs :=
  let s1 : PcrLogs :=
    { slot with PCR := { Index := mapIndex, Bank := bank },
                Measurement := expectedPcrEx.Value,
                PCRMatches := rule.PcrMatches }
  let s2 : PcrLogs :=
    match expectedPcrEx.Event, rule.EventlogEquals with
    | some events, some spec =>
      { s1 with EventlogEqual := some (equalsBlock spec events) }
    | _, _ => s1
  match expectedPcrEx.Event, rule.EventlogIncludes with
  | some events, some _ => { s2 with EventlogIncludes := some (newTpmEvents events) }
  | _, _ => s2

/-- Lines 228-277: the pass over one legacy bank.  The third list is the rule
index in the order the `range` statement visits it, `index` the slot counter,
`newFlavorPcrs` the slice being filled.  A bank mismatch breaks; an access
`newFlavorPcrs[index]` or `rules[index]` out of range is `none`. -/
def bankLoop (D : Decls) (bank : String) (pcrMap : PcrMap) (rules : PcrRules) :
    List (Int × String) → Nat → List PcrLogs → Option (List PcrLogs)
  | [], _, newFlavorPcrs => some newFlavorPcrs
  | (mapIndex, templateBank) :: rest, index, newFlavorPcrs =>
    if D.SHAAlgorithm bank ≠ D.SHAAlgorithm templateBank then
      some newFlavorPcrs
    else
      match pcrMap.lookup (D.PcrIndexString mapIndex) with
      | some expectedPcrEx =>
        match newFlavorPcrs[index]?, rules[index]? with
        | some slot, some rule =>
          bankLoop D bank pcrMap rules rest (index + 1)
            (newFlavorPcrs.set index (writeSlot bank mapIndex expectedPcrEx rule slot))
        | _, _ => none
      | none => bankLoop D bank pcrMap rules rest (index + 1) newFlavorPcrs

/-- The visiting order of one `range pcrsmap` statement, chosen per legacy
bank: a rearrangement of the map's pairs. -/
abbrev BankOrder := String → List (Int × String) → List (Int × String)

/-- Lines 226-279: the loop over the legacy banks, each pass starting with
`index := 0` and ranging over the rule index in the order `enum bank`. -/
def banksLoop (D : Decls) (enum : BankOrder) (pcrsmap : List (Int × String))
    (rules : PcrRules) : List (String × PcrMap) → List PcrLogs → Option (List PcrLogs)
  | [], newFlavorPcrs => some newFlavorPcrs
  | (bank, pcrMap) :: rest, newFlavorPcrs =>
    match bankLoop D bank pcrMap rules (enum bank pcrsmap) 0 newFlavorPcrs with
    | none => none
    | some filled => banksLoop D enum pcrsmap rules rest filled

/-- Lines 193-279 for one template: the rule index of the entry's category,
the pre-sized slice `make([]PcrLogs, len(pcrsmap))`, and the loop over the
legacy banks. -/
def projectTemplate (D : Decls) (enum : BankOrder) (flavor : SignedFlavor)
    (template : FlavorTemplate) : Option (List PcrLogs) :=
  let flavorname := flavor.Flavor.Meta.Description.FlavorPart
  let pcrsmap := (ruleIndex flavorname template).1
  let rules := (ruleIndex flavorname template).2
  banksLoop D enum pcrsmap rules (flavor.Flavor.Pcrs.getD [])
    (List.replicate pcrsmap.length PcrLogs.zero)

/-- The visiting orders of all `range pcrsmap` statements met while one entry
is converted, by position of the template in the selected list and by legacy
bank; each is a permutation of the map's pairs. -/
structure RangeOrder where
  enum : Nat → BankOrder
  perm : ∀ (k : Nat) (bank : String) (m : List (Int × String)), (enum k bank m).Perm m

/-- Assignment `flavor.Flavor.PcrLogs = newFlavorPcrs` of line 280. -/
def setPcrLogs (e : SignedFlavor) (logs : Option (List PcrLogs)) : SignedFlavor :=
  { e with Flavor := { e.Flavor with PcrLogs := logs } }

/-- Lines 189-281: the loop over the selected templates.  `k` is the position
of the next template, `stored` the element `oldFlavorPart.SignedFlavor[flavorIndex]`
and `flavor` the loop copy of the entry. -/
def templatesLoop (D : Decls) (ord : RangeOrder) :
    List FlavorTemplate → Nat → SignedFlavor → SignedFlavor →
      Option (SignedFlavor × SignedFlavor)
  | [], _, stored, flavor => some (stored, flavor)
  | template :: rest, k, stored, flavor =>
    let stored1 := appendTemplateId stored template.ID
    let flavorname := flavor.Flavor.Meta.Description.FlavorPart
    if flavorname = flavor.Flavor.Meta.Description.FlavorPart then
      match projectTemplate D (ord.enum k) flavor template with
      | none => none
      | some newFlavorPcrs =>
        templatesLoop D ord rest (k + 1) stored1 (setPcrLogs flavor (some newFlavorPcrs))
    else
      templatesLoop D ord rest (k + 1) stored1 flavor

/-- Lines 282-283: the legacy map is removed and the projected slice of the
loop copy is stored. -/
def storePcrLogs (stored flavor : SignedFlavor) : SignedFlavor :=
  { stored with Flavor := { stored.Flavor with Pcrs := none, PcrLogs := flavor.Flavor.PcrLogs } }

/-- Lines 171-284 for one entry: the body of the loop over the signed
flavors, giving the stored entry after the iteration. -/
def convertEntry (D : Decls) (ord : RangeOrder) (templates : List FlavorTemplate)
    (flavor : SignedFlavor) : Option SignedFlavor :=
  let stored2 := clearSignature (updateMeta flavor flavor)
  match flavor.Flavor.Pcrs with
  | none => some stored2
  | some _ =>
    match templatesLoop D ord templates 0 stored2 flavor with
    | none => none
    | some (stored3, flavor3) => some (storePcrLogs stored3 flavor3)

/-- Lines 171-284: the loop over `oldFlavorPart.SignedFlavor`; entry number
`n` is converted with the visiting orders `ords n`. -/
def convertEntries (D : Decls) (ords : Nat → RangeOrder) (templates : List FlavorTemplate) :
    Nat → List SignedFlavor → Option (List SignedFlavor)
  | _, [] => some []
  | n, flavor :: rest =>
    match convertEntry D (ords n) templates flavor with
    | none => none
    | some converted =>
      match convertEntries D ords templates (n + 1) rest with
      | none => none
      | some others => some (converted :: others)

/-- A position `k` is reached by the pass over `bank` when the rule-index pairs
visited at positions `0..k` all name the bank's algorithm. -/
def Reached (D : Decls) (bank : String) (enum : List (Int × String)) (k : Nat) : Prop :=
  ∀ j, j ≤ k → ∀ p, enum[j]? = some p → D.SHAAlgorithm bank = D.SHAAlgorithm p.2

/-- The stored entry after the identifiers of the templates `ts` were
appended one by one (line 191, once per template). -/
def appendIds (stored : SignedFlavor) (ts : List FlavorTemplate) : SignedFlavor :=
  ts.foldl (fun e t => appendTemplateId e t.ID) stored

/-! ## Concrete inputs used by the instances below -/

/-- An instance of the missing declarations: `SHAAlgorithm` is a conversion of
the bank name, and PCR index `i` has the key `pcr_i`. -/
def Decls.std : Decls :=
  { SHAAlgorithm := fun s => s, PcrIndexString := fun i => "pcr_" ++ toString i }

/-- Every `range pcrsmap` visits the pairs in the order they are listed. -/
def RangeOrder.listed : RangeOrder :=
  { enum := fun _ _ m => m, perm := fun _ _ _ => List.Perm.refl _ }

/-- A template without any per-category section. -/
def noParts : FlavorParts := { Platform := none, OS := none, HostUnique := none }

/-- A template gated on the vendor condition. -/
def tplVendor : FlavorTemplate :=
  { ID := "id-vendor", Label := "vendor", Condition := ["//host_info/vendor//*[text()='Linux']"],
    FlavorParts := noParts }

/-- A template gated on the vendor condition and on the TPM version. -/
def tplTpm : FlavorTemplate :=
  { ID := "id-tpm", Label := "tpm",
    Condition := ["//host_info/vendor//*[text()='Linux']", "//host_info/tpm_version//*[text()='2.0']"],
    FlavorParts := noParts }

/-- A toy JSON library: a document is the one query it answers, every
non-empty text parses, and two raw templates are known. -/
def toyLib : JsonLib String Unit :=
  { Parse := fun s => if s = "" then none else some s,
    Unmarshal := fun raw =>
      if raw = "vendor" then some tplVendor else if raw = "tpm" then some tplTpm else none,
    Query := fun doc q => if doc = q then some () else none }

/-- A rule for PCR 0 of bank SHA256 with the match flag set and no event-log
specs. -/
def ruleSha256 : PcrRule :=
  { Pcr := { Index := 0, Bank := "SHA256" }, PcrMatches := true,
    EventlogEquals := none, EventlogIncludes := none }

/-- A template whose PLATFORM section is the single rule `ruleSha256`. -/
def tplPlatform : FlavorTemplate :=
  { ID := "id-platform", Label := "platform",
    Condition := ["//host_info/vendor//*[text()='Linux']"],
    FlavorParts := { Platform := some { PcrRules := [ruleSha256] }, OS := none,
                     HostUnique := none } }

/-- A description block of category PLATFORM with no template id and no flag. -/
def descPlatform : Description :=
  { FlavorPart := "PLATFORM", FlavorTemplateIds := [], CbntEnabled := false,
    SuefiEnabled := false }

/-- A signed PLATFORM entry with one bank, SHA256, holding PCR 0 with the
measurement `abc123` and no events. -/
def entryPlatform : SignedFlavor :=
  { Signature := "signed",
    Flavor := { Meta := { Description := descPlatform }, Hardware := none,
                Pcrs := some [("SHA256", [("pcr_0", { Value := "abc123", Event := none })])],
                PcrLogs := none } }

/-- Two legacy events. -/
def sampleEvents : List EventLog :=
  [ { DigestType := "typeA", Value := "m1", Label := "first" },
    { DigestType := "typeB", Value := "m2", Label := "second" } ]

/-- A legacy bank whose PCR 0 and PCR 2 carry events. -/
def pcrMapEvents : PcrMap :=
  [ ("pcr_0", { Value := "v0", Event := some sampleEvents }),
    ("pcr_2", { Value := "v2", Event := some sampleEvents }) ]

/-- A rule with an EventlogEquals spec. -/
def ruleEquals : PcrRule :=
  { Pcr := { Index := 0, Bank := "SHA256" }, PcrMatches := true,
    EventlogEquals := some { ExcludingTags := some ["skip"] }, EventlogIncludes := none }

/-- A visiting order in which the pair at position 1 names another bank. -/
def enumMismatch : List (Int × String) := [(0, "SHA256"), (1, "SHA1"), (2, "SHA256")]

/-- A signed PLATFORM entry whose only bank is SHA1. -/
def entrySha1 : SignedFlavor :=
  { Signature := "signed",
    Flavor := { Meta := { Description := descPlatform }, Hardware := none,
                Pcrs := some [("SHA1", [("pcr_0", { Value := "abc123", Event := none })])],
                PcrLogs := none } }

/-- A template has no rule list for the category `flavorname`: the section
of that category is absent, or the category is none of PLATFORM, OS and
HOST_UNIQUE. -/
def NoSection (flavorname : String) (t : FlavorTemplate) : Prop :=
  (flavorname = "PLATFORM" → t.FlavorParts.Platform = none) ∧
  (flavorname = "OS" → t.FlavorParts.OS = none) ∧
  (flavorname = "HOST_UNIQUE" → t.FlavorParts.HostUnique = none)

/-- The visiting orders of the templates from position `n` on. -/
def RangeOrder.shift (ord : RangeOrder) (n : Nat) : RangeOrder :=
  { enum := fun k => ord.enum (n + k), perm := fun k => ord.perm (n + k) }

/-- A hardware block reporting CBNT enabled and no SUEFI feature. -/
def hardwareCbnt : Hardware :=
  { Feature := { CBNT := some { Enabled := true }, SUEFI := none } }

/-- A hardware block reporting both CBNT and SUEFI enabled. -/
def hardwareBoth : Hardware :=
  { Feature := { CBNT := some { Enabled := true }, SUEFI := some { Enabled := true } } }

/-- A legacy PLATFORM entry with PCR data whose hardware block reports both
CBNT and SUEFI enabled; its description has neither flag. -/
def entryCbntAndSuefi : SignedFlavor :=
  { Signature := "signed",
    Flavor := { Meta := { Description := descPlatform }, Hardware := some hardwareBoth,
                Pcrs := some [("SHA256", [("pcr_0", { Value := "abc123", Event := none })])],
                PcrLogs := none } }

/-- An entry without PCR data whose hardware block reports CBNT enabled. -/
def entryCbnt : SignedFlavor :=
  { Signature := "signed",
    Flavor := { Meta := { Description := descPlatform },
                Hardware := some hardwareCbnt, Pcrs := none, PcrLogs := none } }

/-- An entry without PCR data and without hardware block. -/
def entryNoPcrs : SignedFlavor :=
  { Signature := "signed",
    Flavor := { Meta := { Description := descPlatform },
                Hardware := none, Pcrs := none, PcrLogs := none } }

/-- A template with a label whose second condition is not a key of the
table `flavorTemplateConditions`. -/
def tplUnknown : FlavorTemplate :=
  { ID := "id-unknown", Label := "unknown",
    Condition := ["//host_info/vendor//*[text()='Linux']", "//host_info/not_in_table"],
    FlavorParts := noParts }

/-- The toy JSON library with a third raw template, `tplUnknown`. -/
def toyLibUnknown : JsonLib String Unit :=
  { Parse := toyLib.Parse,
    Unmarshal := fun raw => if raw = "unknown" then some tplUnknown else toyLib.Unmarshal raw,
    Query := toyLib.Query }

/-- A rule for PCR 1 of bank SHA256 with the match flag not set. -/
def ruleIndex1 : PcrRule :=
  { Pcr := { Index := 1, Bank := "SHA256" }, PcrMatches := false,
    EventlogEquals := none, EventlogIncludes := none }

/-- A template whose PLATFORM section has a rule for PCR 0 and a rule for
PCR 1, both of bank SHA256. -/
def tplTwoRules : FlavorTemplate :=
  { ID := "id-two", Label := "two",
    Condition := ["//host_info/vendor//*[text()='Linux']"],
    FlavorParts := { Platform := some { PcrRules := [ruleSha256, ruleIndex1] }, OS := none,
                     HostUnique := none } }

/-- A template whose PLATFORM section has two rules for the same PCR index. -/
def tplSharedIndex : FlavorTemplate :=
  { ID := "id-shared", Label := "shared",
    Condition := ["//host_info/vendor//*[text()='Linux']"],
    FlavorParts := { Platform := some { PcrRules := [ruleSha256, ruleEquals] }, OS := none,
                     HostUnique := none } }

/-- The values of the slot counter `index` at which a pass accesses
`newFlavorPcrs[index]` and `rules[index]` (lines 236-273), in the order of the
accesses: the counter values of the visited pairs, up to the first bank
mismatch, whose PCR index has a legacy entry. -/
def accessedIndices (D : Decls) (bank : String) (pcrMap : PcrMap) :
    List (Int × String) → Nat → List Nat
  | [], _ => []
  | (mapIndex, templateBank) :: rest, index =>
    if D.SHAAlgorithm bank ≠ D.SHAAlgorithm templateBank then
      []
    else
      match pcrMap.lookup (D.PcrIndexString mapIndex) with
      | some _ => index :: accessedIndices D bank pcrMap rest (index + 1)
      | none => accessedIndices D bank pcrMap rest (index + 1)

/-- Every `range pcrsmap` visits the pairs in the reverse of the order they
are listed. -/
def RangeOrder.reversed : RangeOrder :=
  { enum := fun _ _ m => m.reverse, perm := fun _ _ m => List.reverse_perm m }

/-- A legacy bank holding PCR 0 and PCR 1, without events. -/
def pcrMapTwo : PcrMap :=
  [ ("pcr_0", { Value := "v0", Event := none }),
    ("pcr_1", { Value := "v1", Event := none }) ]

/-- A signed PLATFORM entry with one bank, SHA256, holding PCR 0 and PCR 1. -/
def entryTwoPcrs : SignedFlavor :=
  { Signature := "signed",
    Flavor := { Meta := { Description := descPlatform }, Hardware := none,
                Pcrs := some [("SHA256", pcrMapTwo)], PcrLogs := none } }

/-- A rule defining both an EventlogEquals and an EventlogIncludes spec. -/
def ruleBoth : PcrRule :=
  { Pcr := { Index := 0, Bank := "SHA256" }, PcrMatches := true,
    EventlogEquals := some { ExcludingTags := none }, EventlogIncludes := some ["kept"] }

/-- A rule defining an EventlogIncludes spec only. -/
def ruleIncludes : PcrRule :=
  { Pcr := { Index := 0, Bank := "SHA256" }, PcrMatches := true,
    EventlogEquals := none, EventlogIncludes := some ["kept"] }

/-- A visiting order of three pairs of bank SHA256. -/
def enumThree : List (Int × String) := [(0, "SHA256"), (1, "SHA256"), (2, "SHA256")]

/-! ## Template selection: lemmas -/

/-- The condition loop, started with any flag, on a non-empty list is the
conjunction of all conditions; on the empty list it returns the flag. -/
theorem conditionLoop_eq {Doc Node : Type} (L : JsonLib Doc Node) (doc : Doc)
    (conds : List String) (b : Bool) :
    conditionLoop L doc conds b =
      if conds = [] then b
      else conds.all (fun c => (L.Query doc (conditionQuery c)).isSome) := by
  induction conds generalizing b with
  | nil => simp [conditionLoop]
  | cons c rest ih =>
    simp only [conditionLoop]
    cases hq : L.Query doc (conditionQuery c) with
    | none => simp [hq]
    | some n =>
      simp only [ih, hq]
      by_cases hrest : rest = []
      · simp [hrest, hq]
      · simp [hrest, hq]

/-- The condition loop started with `false` is true exactly for a non-empty
list of conditions that all evaluate true. -/
theorem conditionLoop_true_iff {Doc Node : Type} (L : JsonLib Doc Node) (doc : Doc)
    (conds : List String) :
    conditionLoop L doc conds false = true ↔
      conds ≠ [] ∧ ∀ c ∈ conds, (L.Query doc (conditionQuery c)).isSome = true := by
  rw [conditionLoop_eq]
  by_cases h : conds = []
  · simp [h]
  · simp [h]

/-- The test of the loop is the selection predicate. -/
theorem keeps_iff {Doc Node : Type} (L : JsonLib Doc Node) (doc : Doc) (t : FlavorTemplate) :
    keeps L doc t = true ↔ Selected L doc t := by
  simp only [keeps, Selected, Bool.and_eq_true, decide_eq_true_eq, conditionLoop_true_iff]

/-- When every raw template parses, the template loop returns the accumulator
followed by the parsed templates that pass the test, in library order. -/
theorem templateLoop_ok {Doc Node : Type} (L : JsonLib Doc Node) (doc : Doc)
    (lib : List String) (acc : List FlavorTemplate)
    (hlib : ∀ raw ∈ lib, (L.Unmarshal raw).isSome = true) :
    templateLoop L doc lib acc =
      .ok (acc ++ (lib.filterMap L.Unmarshal).filter (keeps L doc)) := by
  induction lib generalizing acc with
  | nil => simp [templateLoop]
  | cons raw rest ih =>
    have hrest : ∀ r ∈ rest, (L.Unmarshal r).isSome = true :=
      fun r hr => hlib r (List.mem_cons_of_mem _ hr)
    have hraw := hlib raw (List.mem_cons_self _ _)
    cases hu : L.Unmarshal raw with
    | none => simp [hu] at hraw
    | some t =>
      simp only [templateLoop, hu, List.filterMap_cons]
      by_cases hl : t.Label = ""
      · have hk : keeps L doc t = false := by simp [keeps, hl]
        simp [hl, ih _ hrest, List.filter_cons, hk]
      · by_cases hc : conditionLoop L doc t.Condition false = true
        · have hk : keeps L doc t = true := by simp [keeps, hl, hc]
          simp [hl, hc, ih _ hrest, List.filter_cons, hk]
        · have hk : keeps L doc t = false := by simp [keeps, hc]
          simp [hl, hc, ih _ hrest, List.filter_cons, hk]

/-! ## Template selection: results -/

/-- C1. For a document that parses and a library whose templates all parse,
`findTemplatesToApply` returns a list, and a template is in it if and only if
it is a parsed library template with a non-empty label, a non-empty condition
list, and conditions that all evaluate true.  The loop that breaks at the
first failing condition gives the same answer as evaluating every condition:
an empty condition list is never selected, and neither is a list with one
failing condition, wherever it stands. -/
theorem findTemplatesToApply_selects {Doc Node : Type} (L : JsonLib Doc Node)
    (oldFlavorPart : String) (lib : List String) (doc : Doc)
    (hdoc : L.Parse oldFlavorPart = some doc)
    (hlib : ∀ raw ∈ lib, (L.Unmarshal raw).isSome = true) :
    ∃ result, findTemplatesToApply L oldFlavorPart lib = .ok result ∧
      (∀ t, t ∈ result ↔ (∃ raw ∈ lib, L.Unmarshal raw = some t) ∧ Selected L doc t) ∧
      (∀ t ∈ result, t.Condition ≠ []) ∧
      (∀ t ∈ result, ∀ pre post c, t.Condition = pre ++ c :: post →
          (L.Query doc (conditionQuery c)).isSome = true) ∧
      (∀ conds, conditionLoop L doc conds false =
          (!conds.isEmpty && conds.all (fun c => (L.Query doc (conditionQuery c)).isSome))) := by
  have hmem : ∀ t, t ∈ (lib.filterMap L.Unmarshal).filter (keeps L doc) ↔
      (∃ raw ∈ lib, L.Unmarshal raw = some t) ∧ Selected L doc t := by
    intro t
    simp only [List.mem_filter, List.mem_filterMap, keeps_iff]
  refine ⟨(lib.filterMap L.Unmarshal).filter (keeps L doc), ?_, hmem, ?_, ?_, ?_⟩
  · simp [findTemplatesToApply, hdoc, templateLoop_ok L doc lib [] hlib]
  · intro t ht
    exact ((hmem t).1 ht).2.2.1
  · intro t ht pre post c hc
    exact ((hmem t).1 ht).2.2.2 c (by simp [hc])
  · intro conds
    rw [conditionLoop_eq]
    cases conds with
    | nil => simp
    | cons c rest => simp

/-- C1, instance: a document answering only the vendor query, and a library
with a one-condition template and a two-condition template whose second
condition fails. -/
theorem findTemplatesToApply_selects_witness :
    ∃ result, findTemplatesToApply toyLib "//meta/vendor//*[text()='INTEL']" ["vendor", "tpm"]
        = .ok result ∧
      (∀ t, t ∈ result ↔ (∃ raw ∈ ["vendor", "tpm"], toyLib.Unmarshal raw = some t) ∧
          Selected toyLib "//meta/vendor//*[text()='INTEL']" t) ∧
      (∀ t ∈ result, t.Condition ≠ []) ∧
      (∀ t ∈ result, ∀ pre post c, t.Condition = pre ++ c :: post →
          (toyLib.Query "//meta/vendor//*[text()='INTEL']" (conditionQuery c)).isSome = true) ∧
      (∀ conds, conditionLoop toyLib "//meta/vendor//*[text()='INTEL']" conds false =
          (!conds.isEmpty && conds.all
            (fun c => (toyLib.Query "//meta/vendor//*[text()='INTEL']" (conditionQuery c)).isSome))) :=
  findTemplatesToApply_selects toyLib "//meta/vendor//*[text()='INTEL']" ["vendor", "tpm"]
    "//meta/vendor//*[text()='INTEL']" (by decide) (by decide)

/-! ## The pass over one legacy bank: lemmas -/

/-- A pass keeps the length of the slice and every slot below its starting
counter. -/
theorem bankLoop_frame (D : Decls) (bank : String) (pcrMap : PcrMap) (rules : PcrRules)
    (enum : List (Int × String)) (index : Nat) (slots slots' : List PcrLogs)
    (h : bankLoop D bank pcrMap rules enum index slots = some slots') :
    slots'.length = slots.length ∧ ∀ j, j < index → slots'[j]? = slots[j]? := by
  induction enum generalizing index slots with
  | nil =>
    simp only [bankLoop, Option.some.injEq] at h
    subst h
    simp
  | cons p rest ih =>
    obtain ⟨mapIndex, templateBank⟩ := p
    simp only [bankLoop] at h
    split at h
    · simp only [Option.some.injEq] at h
      subst h
      simp
    · split at h
      · split at h
        · obtain ⟨hl, hf⟩ := ih _ _ h
          refine ⟨by simpa using hl, fun j hj => ?_⟩
          rw [hf j (by omega), List.getElem?_set_ne (by omega)]
        · simp at h
      · obtain ⟨hl, hf⟩ := ih _ _ h
        exact ⟨hl, fun j hj => hf j (by omega)⟩

/-- A bank mismatch at position `k` of the visiting order leaves every slot
from `index + k` on as it was. -/
theorem bankLoop_break (D : Decls) (bank : String) (pcrMap : PcrMap) (rules : PcrRules)
    (enum : List (Int × String)) (index : Nat) (slots slots' : List PcrLogs)
    (k : Nat) (mapIndex : Int) (templateBank : String)
    (h : bankLoop D bank pcrMap rules enum index slots = some slots')
    (hk : enum[k]? = some (mapIndex, templateBank))
    (hne : D.SHAAlgorithm bank ≠ D.SHAAlgorithm templateBank) :
    ∀ j, index + k ≤ j → slots'[j]? = slots[j]? := by
  induction enum generalizing index slots k with
  | nil => simp at hk
  | cons p rest ih =>
    obtain ⟨mi, tb⟩ := p
    simp only [bankLoop] at h
    split at h
    · simp only [Option.some.injEq] at h
      subst h
      intro j _
      rfl
    · rename_i heq
      cases k with
      | zero =>
        simp only [List.getElem?_cons_zero, Option.some.injEq, Prod.mk.injEq] at hk
        obtain ⟨-, rfl⟩ := hk
        exact absurd hne heq
      | succ k' =>
        simp only [List.getElem?_cons_succ] at hk
        split at h
        · split at h
          · intro j hj
            rw [ih _ _ _ h hk j (by omega), List.getElem?_set_ne (by omega)]
          · simp at h
        · intro j hj
          exact ih _ _ _ h hk j (by omega)

/-- At a reached position whose PCR index has a legacy entry, slot
`index + k` is written from that entry and from the rule at the same
position. -/
theorem bankLoop_write (D : Decls) (bank : String) (pcrMap : PcrMap) (rules : PcrRules)
    (enum : List (Int × String)) (index : Nat) (slots slots' : List PcrLogs)
    (k : Nat) (mapIndex : Int) (templateBank : String) (ex : PcrEx)
    (h : bankLoop D bank pcrMap rules enum index slots = some slots')
    (hreach : Reached D bank enum k)
    (hk : enum[k]? = some (mapIndex, templateBank))
    (hlook : pcrMap.lookup (D.PcrIndexString mapIndex) = some ex) :
    ∃ slot rule, slots[index + k]? = some slot ∧ rules[index + k]? = some rule ∧
      slots'[index + k]? = some (writeSlot bank mapIndex ex rule slot) := by
  induction enum generalizing index slots k with
  | nil => simp at hk
  | cons p rest ih =>
    obtain ⟨mi, tb⟩ := p
    have hhead : D.SHAAlgorithm bank = D.SHAAlgorithm tb :=
      hreach 0 (Nat.zero_le _) (mi, tb) (by simp)
    simp only [bankLoop, hhead, ne_eq, not_true_eq_false, if_false] at h
    cases k with
    | zero =>
      simp only [List.getElem?_cons_zero, Option.some.injEq, Prod.mk.injEq] at hk
      obtain ⟨rfl, rfl⟩ := hk
      simp only [hlook] at h
      split at h
      · rename_i slot rule hs hr
        refine ⟨slot, rule, by simpa using hs, by simpa using hr, ?_⟩
        have hlt : index < slots.length := by
          rcases List.getElem?_eq_some.1 hs with ⟨hlt, -⟩
          exact hlt
        rw [Nat.add_zero, (bankLoop_frame D bank pcrMap rules rest _ _ _ h).2 index (by omega)]
        exact List.getElem?_set_eq_of_lt _ hlt
      · simp at h
    | succ k' =>
      simp only [List.getElem?_cons_succ] at hk
      have hreach' : Reached D bank rest k' := by
        intro j hj q hq
        exact hreach (j + 1) (by omega) q (by simpa using hq)
      have hidx : index + (k' + 1) = index + 1 + k' := by omega
      rw [hidx]
      split at h
      · split at h
        · obtain ⟨slot, rule, hs, hr, hw⟩ := ih _ _ _ h hreach' hk
          rw [List.getElem?_set_ne (by omega)] at hs
          exact ⟨slot, rule, hs, hr, hw⟩
        · simp at h
      · exact ih _ _ _ h hreach' hk

/-- When the slice and the rule list are long enough for the remaining
visits, the pass returns. -/
theorem bankLoop_total (D : Decls) (bank : String) (pcrMap : PcrMap) (rules : PcrRules)
    (enum : List (Int × String)) (index : Nat) (slots : List PcrLogs)
    (hs : index + enum.length ≤ slots.length) (hr : index + enum.length ≤ rules.length) :
    ∃ slots', bankLoop D bank pcrMap rules enum index slots = some slots' ∧
      slots'.length = slots.length := by
  induction enum generalizing index slots with
  | nil => exact ⟨slots, by simp [bankLoop], rfl⟩
  | cons p rest ih =>
    obtain ⟨mi, tb⟩ := p
    simp only [List.length_cons] at hs hr
    simp only [bankLoop]
    split
    · exact ⟨slots, rfl, rfl⟩
    · split
      · have h1 : index < slots.length := by omega
        have h2 : index < rules.length := by omega
        rw [List.getElem?_eq_getElem h1, List.getElem?_eq_getElem h2]
        simp only []
        obtain ⟨s', hs', hl'⟩ := ih (index + 1)
          (slots.set index (writeSlot bank mi _ rules[index] slots[index]))
          (by simp; omega) (by omega)
        exact ⟨s', hs', by simpa using hl'⟩
      · exact ih (index + 1) slots (by omega) (by omega)

/-! ## Rule index and template loop: lemmas -/

/-- A map assignment adds at most one pair. -/
theorem mapInsert_length_le (k : Int) (v : String) (m : List (Int × String)) :
    (mapInsert k v m).length ≤ m.length + 1 := by
  induction m with
  | nil => simp [mapInsert]
  | cons p rest ih =>
    obtain ⟨k', v'⟩ := p
    simp only [mapInsert]
    split
    · simp
    · simp only [List.length_cons]
      omega

/-- The rule index built on top of `acc` has at most one pair per rule more. -/
theorem foldl_mapInsert_length_le (rules : PcrRules) (acc : List (Int × String)) :
    (rules.foldl (fun pcrsmap r => mapInsert r.Pcr.Index r.Pcr.Bank pcrsmap) acc).length
      ≤ acc.length + rules.length := by
  induction rules generalizing acc with
  | nil => simp
  | cons r rest ih =>
    simp only [List.foldl_cons, List.length_cons]
    have h1 := ih (mapInsert r.Pcr.Index r.Pcr.Bank acc)
    have h2 := mapInsert_length_le r.Pcr.Index r.Pcr.Bank acc
    omega

/-- The rule index has at most as many pairs as the rule list has rules. -/
theorem buildPcrsmap_length_le (rules : PcrRules) :
    (buildPcrsmap rules).length ≤ rules.length := by
  have h := foldl_mapInsert_length_le rules []
  simpa [buildPcrsmap] using h

/-- The rule index is always the one built from the chosen rule list. -/
theorem ruleIndex_fst (flavorname : String) (template : FlavorTemplate) :
    (ruleIndex flavorname template).1 = buildPcrsmap (ruleIndex flavorname template).2 := by
  unfold ruleIndex
  split
  · rfl
  · split
    · rfl
    · split
      · rfl
      · rfl

/-- The loop over the legacy banks returns, with the slice length kept, when
every visiting order is a permutation of the rule index and the slice and the
rule list are at least as long as the rule index. -/
theorem banksLoop_total (D : Decls) (enum : BankOrder) (pcrsmap : List (Int × String))
    (rules : PcrRules) (henum : ∀ bank, (enum bank pcrsmap).Perm pcrsmap)
    (hr : pcrsmap.length ≤ rules.length)
    (pcrs : List (String × PcrMap)) (slots : List PcrLogs)
    (hs : pcrsmap.length ≤ slots.length) :
    ∃ slots', banksLoop D enum pcrsmap rules pcrs slots = some slots' ∧
      slots'.length = slots.length := by
  induction pcrs generalizing slots with
  | nil => exact ⟨slots, rfl, rfl⟩
  | cons b rest ih =>
    obtain ⟨bank, pcrMap⟩ := b
    have hlen : (enum bank pcrsmap).length = pcrsmap.length := (henum bank).length_eq
    obtain ⟨s1, h1, l1⟩ := bankLoop_total D bank pcrMap rules (enum bank pcrsmap) 0 slots
      (by omega) (by omega)
    obtain ⟨s2, h2, l2⟩ := ih s1 (by omega)
    exact ⟨s2, by simp [banksLoop, h1, h2], by omega⟩

/-- The projection for one template returns a slice as long as the rule
index. -/
theorem projectTemplate_total (D : Decls) (ord : RangeOrder) (k : Nat)
    (flavor : SignedFlavor) (template : FlavorTemplate) :
    ∃ logs, projectTemplate D (ord.enum k) flavor template = some logs ∧
      logs.length =
        (ruleIndex flavor.Flavor.Meta.Description.FlavorPart template).1.length := by
  have hr : (ruleIndex flavor.Flavor.Meta.Description.FlavorPart template).1.length ≤
      (ruleIndex flavor.Flavor.Meta.Description.FlavorPart template).2.length := by
    rw [ruleIndex_fst]
    exact buildPcrsmap_length_le _
  obtain ⟨s, hs, hl⟩ := banksLoop_total D (ord.enum k) _ _
    (fun bank => ord.perm k bank _) hr (flavor.Flavor.Pcrs.getD [])
    (List.replicate (ruleIndex flavor.Flavor.Meta.Description.FlavorPart template).1.length
      PcrLogs.zero) (by simp)
  exact ⟨s, hs, by simpa using hl⟩

/-- The projection reads the category and the legacy map of the loop copy,
not its projected slice. -/
theorem projectTemplate_setPcrLogs (D : Decls) (enum : BankOrder) (flavor : SignedFlavor)
    (logs : Option (List PcrLogs)) (template : FlavorTemplate) :
    projectTemplate D enum (setPcrLogs flavor logs) template =
      projectTemplate D enum flavor template := rfl

/-- The template loop returns: the stored entry has the identifiers of all
templates appended, and the loop copy differs from the entry at most in its
projected slice. -/
theorem templatesLoop_shape (D : Decls) (ord : RangeOrder) (ts : List FlavorTemplate)
    (k : Nat) (stored flavor : SignedFlavor) :
    ∃ logs, templatesLoop D ord ts k stored flavor =
      some (appendIds stored ts, setPcrLogs flavor logs) := by
  induction ts generalizing k stored flavor with
  | nil => exact ⟨flavor.Flavor.PcrLogs, rfl⟩
  | cons t rest ih =>
    obtain ⟨l1, h1, -⟩ := projectTemplate_total D ord k flavor t
    obtain ⟨l2, h2⟩ := ih (k + 1) (appendTemplateId stored t.ID) (setPcrLogs flavor (some l1))
    refine ⟨l2, ?_⟩
    simp only [templatesLoop, if_true, h1]
    rw [h2]
    rfl

/-- The template loop over `a ++ b` is the loop over `a` followed by the loop
over `b`, whose templates have the positions after those of `a`. -/
theorem templatesLoop_append (D : Decls) (ord : RangeOrder) (a b : List FlavorTemplate)
    (k : Nat) (stored flavor : SignedFlavor) :
    templatesLoop D ord (a ++ b) k stored flavor =
      match templatesLoop D ord a k stored flavor with
      | none => none
      | some (stored1, flavor1) => templatesLoop D ord b (k + a.length) stored1 flavor1 := by
  induction a generalizing k stored flavor with
  | nil => simp [templatesLoop]
  | cons t rest ih =>
    simp only [List.cons_append, templatesLoop, if_true, List.length_cons]
    cases hp : projectTemplate D (ord.enum k) flavor t with
    | none => rfl
    | some l =>
      simp only []
      have hk : k + (rest.length + 1) = k + 1 + rest.length := by omega
      rw [hk]
      exact ih (k + 1) _ _

/-- The loop over `ts ++ [t]` ends with the projection of `t`, computed from
the entry itself, in the loop copy. -/
theorem templatesLoop_last (D : Decls) (ord : RangeOrder) (ts : List FlavorTemplate)
    (t : FlavorTemplate) (k : Nat) (stored flavor : SignedFlavor) :
    ∃ logs, projectTemplate D (ord.enum (k + ts.length)) flavor t = some logs ∧
      templatesLoop D ord (ts ++ [t]) k stored flavor =
        some (appendIds stored (ts ++ [t]), setPcrLogs flavor (some logs)) := by
  obtain ⟨l0, h0⟩ := templatesLoop_shape D ord ts k stored flavor
  obtain ⟨logs, hl, -⟩ := projectTemplate_total D ord (k + ts.length) flavor t
  refine ⟨logs, hl, ?_⟩
  rw [templatesLoop_append, h0]
  simp only [templatesLoop, if_true, projectTemplate_setPcrLogs, hl]
  simp [appendIds, setPcrLogs]

/-- An entry with PCR data converts to the stored entry of the template loop
with the legacy map removed and the slice of the loop copy attached. -/
theorem convertEntry_pcrs (D : Decls) (ord : RangeOrder) (ts : List FlavorTemplate)
    (e : SignedFlavor) (hp : e.Flavor.Pcrs ≠ none) :
    ∃ logs, convertEntry D ord ts e =
      some (storePcrLogs (appendIds (clearSignature (updateMeta e e)) ts)
        (setPcrLogs e logs)) := by
  obtain ⟨logs, h⟩ := templatesLoop_shape D ord ts 0 (clearSignature (updateMeta e e)) e
  refine ⟨logs, ?_⟩
  unfold convertEntry
  cases hq : e.Flavor.Pcrs with
  | none => exact absurd hq hp
  | some p => simp only [h]

/-- An entry with PCR data and a non-empty template list converts to an entry
whose slice is the projection of the last template. -/
theorem convertEntry_last (D : Decls) (ord : RangeOrder) (ts : List FlavorTemplate)
    (t : FlavorTemplate) (e : SignedFlavor) (hp : e.Flavor.Pcrs ≠ none) :
    ∃ logs, projectTemplate D (ord.enum ts.length) e t = some logs ∧
      convertEntry D ord (ts ++ [t]) e =
        some (storePcrLogs (appendIds (clearSignature (updateMeta e e)) (ts ++ [t]))
          (setPcrLogs e (some logs))) := by
  obtain ⟨logs, hl, h⟩ := templatesLoop_last D ord ts t 0 (clearSignature (updateMeta e e)) e
  rw [Nat.zero_add] at hl
  refine ⟨logs, hl, ?_⟩
  unfold convertEntry
  cases hq : e.Flavor.Pcrs with
  | none => exact absurd hq hp
  | some p => simp only [h]

/-- A pass none of whose visited pairs names the bank's algorithm leaves the
slice as it was. -/
theorem bankLoop_no_match (D : Decls) (bank : String) (pcrMap : PcrMap) (rules : PcrRules)
    (enum : List (Int × String)) (index : Nat) (slots : List PcrLogs)
    (hno : ∀ p ∈ enum, D.SHAAlgorithm bank ≠ D.SHAAlgorithm p.2) :
    bankLoop D bank pcrMap rules enum index slots = some slots := by
  cases enum with
  | nil => rfl
  | cons p rest =>
    obtain ⟨mi, tb⟩ := p
    have h := hno (mi, tb) (List.mem_cons_self _ _)
    simp only [bankLoop]
    rw [if_pos h]

/-- A pair of the map after an assignment is the assigned pair or a pair of
the map before. -/
theorem mem_mapInsert (k : Int) (v : String) (m : List (Int × String)) (p : Int × String)
    (h : p ∈ mapInsert k v m) : p = (k, v) ∨ p ∈ m := by
  induction m with
  | nil =>
    simp only [mapInsert, List.mem_singleton] at h
    exact Or.inl h
  | cons q rest ih =>
    obtain ⟨k', v'⟩ := q
    simp only [mapInsert] at h
    split at h
    · rcases List.mem_cons.1 h with h1 | h1
      · exact Or.inl h1
      · exact Or.inr (List.mem_cons_of_mem _ h1)
    · rcases List.mem_cons.1 h with h1 | h1
      · exact Or.inr (h1 ▸ List.mem_cons_self _ _)
      · rcases ih h1 with h2 | h2
        · exact Or.inl h2
        · exact Or.inr (List.mem_cons_of_mem _ h2)

/-- Every pair of the rule index built on `acc` is in `acc` or carries the
bank of a rule. -/
theorem mem_foldl_mapInsert (rules : PcrRules) (acc : List (Int × String)) (p : Int × String)
    (h : p ∈ rules.foldl (fun pcrsmap r => mapInsert r.Pcr.Index r.Pcr.Bank pcrsmap) acc) :
    p ∈ acc ∨ ∃ r ∈ rules, r.Pcr.Index = p.1 ∧ r.Pcr.Bank = p.2 := by
  induction rules generalizing acc with
  | nil => exact Or.inl h
  | cons r rest ih =>
    simp only [List.foldl_cons] at h
    rcases ih _ h with h1 | ⟨r', hr', hb⟩
    · rcases mem_mapInsert _ _ _ _ h1 with h2 | h2
      · exact Or.inr ⟨r, List.mem_cons_self _ _, by simp [h2]⟩
      · exact Or.inl h2
    · exact Or.inr ⟨r', List.mem_cons_of_mem _ hr', hb⟩

/-- Every pair of the rule index carries the index and bank of a rule. -/
theorem mem_buildPcrsmap (rules : PcrRules) (p : Int × String) (h : p ∈ buildPcrsmap rules) :
    ∃ r ∈ rules, r.Pcr.Index = p.1 ∧ r.Pcr.Bank = p.2 := by
  rcases mem_foldl_mapInsert rules [] p h with h1 | h1
  · simp at h1
  · exact h1

/-! ## Projection: results -/

/-- C2. Round trip: an entry whose legacy map has the single bank `b` with the
single entry for PCR index `i`, measurement `v`, no events, converted with the
single template whose rule list for the entry's category is the one rule
(index `i`, bank `b`, match flag `m`, no event-log specs), has as projected
slice exactly one slot: index `i`, bank `b`, measurement `v`, matches `m`, no
equals block and no includes block. -/
theorem projection_round_trip (D : Decls) (ord : RangeOrder) (e : SignedFlavor)
    (t : FlavorTemplate) (b v : String) (i : Int) (m : Bool)
    (hp : e.Flavor.Pcrs = some [(b, [(D.PcrIndexString i, { Value := v, Event := none })])])
    (hr : (ruleIndex e.Flavor.Meta.Description.FlavorPart t).2 =
      [{ Pcr := { Index := i, Bank := b }, PcrMatches := m, EventlogEquals := none,
         EventlogIncludes := none }]) :
    ∃ out, convertEntry D ord [t] e = some out ∧
      out.Flavor.PcrLogs =
        some [{ PCR := { Index := i, Bank := b }, Measurement := v, PCRMatches := m,
                EventlogEqual := none, EventlogIncludes := none }] := by
  have hne : e.Flavor.Pcrs ≠ none := by simp [hp]
  obtain ⟨logs, hl, hc⟩ := convertEntry_last D ord [] t e hne
  have henum : ord.enum 0 b [(i, b)] = [(i, b)] := List.perm_singleton.1 (ord.perm 0 b _)
  have hproj : projectTemplate D (ord.enum 0) e t =
      some [{ PCR := { Index := i, Bank := b }, Measurement := v, PCRMatches := m,
              EventlogEqual := none, EventlogIncludes := none }] := by
    simp only [projectTemplate, ruleIndex_fst, hr, hp]
    simp [buildPcrsmap, mapInsert, banksLoop, henum, bankLoop, List.lookup, writeSlot,
      PcrLogs.zero]
  simp only [List.length_nil] at hl
  rw [hproj] at hl
  refine ⟨_, hc, ?_⟩
  simp only [storePcrLogs, setPcrLogs]
  rw [← Option.some.inj hl]

/-- C2, instance: bank SHA256, PCR index 0, measurement abc123, match flag
true. -/
theorem projection_round_trip_witness :
    ∃ out, convertEntry Decls.std RangeOrder.listed [tplPlatform] entryPlatform = some out ∧
      out.Flavor.PcrLogs =
        some [{ PCR := { Index := 0, Bank := "SHA256" }, Measurement := "abc123",
                PCRMatches := true, EventlogEqual := none, EventlogIncludes := none }] :=
  projection_round_trip Decls.std RangeOrder.listed entryPlatform tplPlatform
    "SHA256" "abc123" 0 true (by decide) (by decide)

/-- C3. Equals projection: in a pass over a legacy bank (slice and rule list
long enough for the visiting order, as in `main`), when position `k` is
reached, the legacy bank has an entry with an event list for the PCR index
visited there, and the rule at position `k` defines an EventlogEquals spec,
then the pass returns and slot `k` has an equals block whose exclude-tag list
is the rule's and whose event list has the length of the legacy list, the
`j`-th event being the singleton tag list of the `j`-th legacy label, its
value as measurement and its digest type as type identifier. -/
theorem equals_projection (D : Decls) (bank : String) (pcrMap : PcrMap) (rules : PcrRules)
    (enum : List (Int × String)) (slots : List PcrLogs) (k : Nat) (mapIndex : Int)
    (templateBank : String) (ex : PcrEx) (events : List EventLog) (rule : PcrRule)
    (spec : RuleEventlogEquals)
    (hs : enum.length ≤ slots.length) (hr : enum.length ≤ rules.length)
    (hreach : Reached D bank enum k)
    (hk : enum[k]? = some (mapIndex, templateBank))
    (hlook : pcrMap.lookup (D.PcrIndexString mapIndex) = some ex)
    (hev : ex.Event = some events)
    (hrule : rules[k]? = some rule)
    (hspec : rule.EventlogEquals = some spec) :
    ∃ slots' slot block newEvents,
      bankLoop D bank pcrMap rules enum 0 slots = some slots' ∧
      slots'[k]? = some slot ∧ slot.EventlogEqual = some block ∧
      block.ExcludeTags = spec.ExcludingTags ∧ block.Events = some newEvents ∧
      newEvents.length = events.length ∧
      ∀ (j : Nat) (old : EventLog), events[j]? = some old →
        newEvents[j]? = some ({ Tags := [old.Label], Measurement := old.Value,
                                TypeID := old.DigestType } : NewEventLog) := by
  obtain ⟨slots', hrun, -⟩ := bankLoop_total D bank pcrMap rules enum 0 slots
    (by omega) (by omega)
  obtain ⟨slot0, rule0, -, hr0, hw⟩ :=
    bankLoop_write D bank pcrMap rules enum 0 slots slots' k mapIndex templateBank ex
      hrun hreach hk hlook
  rw [Nat.zero_add] at hr0 hw
  rw [hrule] at hr0
  obtain rfl := Option.some.inj hr0
  have hblock : (writeSlot bank mapIndex ex rule slot0).EventlogEqual =
      some (equalsBlock spec events) := by
    simp only [writeSlot, hev, hspec]
    cases rule.EventlogIncludes <;> rfl
  refine ⟨slots', _, equalsBlock spec events, newTpmEvents events, hrun, hw, hblock, ?_, rfl, ?_, ?_⟩
  · simp only [equalsBlock]
    cases spec.ExcludingTags <;> rfl
  · simp [newTpmEvents]
  · intro j old hj
    simp [newTpmEvents, newEvent, List.getElem?_map, hj]

/-- C3, instance: one bank pass over SHA256 whose PCR 0 carries two events,
with a rule defining an EventlogEquals spec. -/
theorem equals_projection_witness :
    ∃ slots' slot block newEvents,
      bankLoop Decls.std "SHA256" pcrMapEvents [ruleEquals] [(0, "SHA256")] 0 [PcrLogs.zero]
        = some slots' ∧
      slots'[0]? = some slot ∧ slot.EventlogEqual = some block ∧
      block.ExcludeTags = some ["skip"] ∧ block.Events = some newEvents ∧
      newEvents.length = sampleEvents.length ∧
      ∀ (j : Nat) (old : EventLog), sampleEvents[j]? = some old →
        newEvents[j]? = some ({ Tags := [old.Label], Measurement := old.Value,
                                TypeID := old.DigestType } : NewEventLog) :=
  equals_projection Decls.std "SHA256" pcrMapEvents [ruleEquals] [(0, "SHA256")]
    [PcrLogs.zero] 0 0 "SHA256" { Value := "v0", Event := some sampleEvents } sampleEvents
    ruleEquals { ExcludingTags := some ["skip"] }
    (by decide) (by decide)
    (by intro j hj p hp
        have hj0 : j = 0 := by omega
        subst hj0
        simp only [List.getElem?_cons_zero, Option.some.injEq] at hp
        subst hp
        rfl)
    (by decide) (by decide) (by decide) (by decide) (by decide)

/-- C4. Early break: in a pass over a legacy bank (slice and rule list long
enough for the visiting order), if the pair visited at position `k` names a
bank algorithm different from the legacy bank's, the pass returns with every
slot at a position at least `k` as it was before the pass, whatever pairs are
visited after position `k` and whatever the legacy bank holds for them. -/
theorem early_break (D : Decls) (bank : String) (pcrMap : PcrMap) (rules : PcrRules)
    (enum : List (Int × String)) (slots : List PcrLogs) (k : Nat) (mapIndex : Int)
    (templateBank : String)
    (hs : enum.length ≤ slots.length) (hr : enum.length ≤ rules.length)
    (hk : enum[k]? = some (mapIndex, templateBank))
    (hne : D.SHAAlgorithm bank ≠ D.SHAAlgorithm templateBank) :
    ∃ slots', bankLoop D bank pcrMap rules enum 0 slots = some slots' ∧
      slots'.length = slots.length ∧ ∀ j, k ≤ j → slots'[j]? = slots[j]? := by
  obtain ⟨slots', hrun, hlen⟩ := bankLoop_total D bank pcrMap rules enum 0 slots
    (by omega) (by omega)
  refine ⟨slots', hrun, hlen, fun j hj => ?_⟩
  exact bankLoop_break D bank pcrMap rules enum 0 slots slots' k mapIndex templateBank
    hrun hk hne j (by omega)

/-- C4, instance: the pass over SHA256 visits PCR 0 of SHA256, then PCR 1 of
SHA1, then PCR 2 of SHA256; the legacy bank has a measurement for PCR 2, and
slot 2 stays empty. -/
theorem early_break_witness :
    (pcrMapEvents.lookup (Decls.std.PcrIndexString 2)).isSome = true ∧
    ∃ slots', bankLoop Decls.std "SHA256" pcrMapEvents [ruleEquals, ruleEquals, ruleEquals]
        enumMismatch 0 (List.replicate 3 PcrLogs.zero) = some slots' ∧
      slots'.length = (List.replicate 3 PcrLogs.zero).length ∧
      ∀ j, 1 ≤ j → slots'[j]? = (List.replicate 3 PcrLogs.zero)[j]? :=
  ⟨by decide,
   early_break Decls.std "SHA256" pcrMapEvents [ruleEquals, ruleEquals, ruleEquals]
    enumMismatch (List.replicate 3 PcrLogs.zero) 1 1 "SHA1" (by decide) (by decide)
    (by decide) (by decide)⟩

/-- When no legacy bank names the algorithm of a pair of the rule index, the
loop over the legacy banks leaves the slice as it was. -/
theorem banksLoop_no_match (D : Decls) (enum : BankOrder) (pcrsmap : List (Int × String))
    (rules : PcrRules) (henum : ∀ bank, (enum bank pcrsmap).Perm pcrsmap)
    (pcrs : List (String × PcrMap)) (slots : List PcrLogs)
    (hno : ∀ b ∈ pcrs, ∀ p ∈ pcrsmap, D.SHAAlgorithm b.1 ≠ D.SHAAlgorithm p.2) :
    banksLoop D enum pcrsmap rules pcrs slots = some slots := by
  induction pcrs with
  | nil => rfl
  | cons b rest ih =>
    obtain ⟨bank, pcrMap⟩ := b
    have h1 : bankLoop D bank pcrMap rules (enum bank pcrsmap) 0 slots = some slots :=
      bankLoop_no_match D bank pcrMap rules _ 0 slots
        (fun p hp => hno (bank, pcrMap) (List.mem_cons_self _ _) p ((henum bank).subset hp))
    have h2 := ih (fun b hb => hno b (List.mem_cons_of_mem _ hb))
    simp only [banksLoop, h1, h2]

/-- C5. Never-matching bank: if the algorithm of a legacy bank is the bank of
no rule of the category's rule list, the pass over that bank returns the slice
as it was (it populates no slot); and when every legacy bank of the entry is
such a bank, the projected slice consists of zero-valued slots only and has
the pre-sized length, the size of the rule index. -/
theorem never_matching_bank (D : Decls) (ord : RangeOrder) (k : Nat)
    (flavor : SignedFlavor) (template : FlavorTemplate) :
    (∀ (bank : String) (pcrMap : PcrMap) (slots : List PcrLogs),
      (∀ r ∈ (ruleIndex flavor.Flavor.Meta.Description.FlavorPart template).2,
          D.SHAAlgorithm bank ≠ D.SHAAlgorithm r.Pcr.Bank) →
      bankLoop D bank pcrMap (ruleIndex flavor.Flavor.Meta.Description.FlavorPart template).2
        (ord.enum k bank (ruleIndex flavor.Flavor.Meta.Description.FlavorPart template).1)
        0 slots = some slots) ∧
    ((∀ b ∈ flavor.Flavor.Pcrs.getD [],
        ∀ r ∈ (ruleIndex flavor.Flavor.Meta.Description.FlavorPart template).2,
          D.SHAAlgorithm b.1 ≠ D.SHAAlgorithm r.Pcr.Bank) →
      projectTemplate D (ord.enum k) flavor template =
        some (List.replicate
          (ruleIndex flavor.Flavor.Meta.Description.FlavorPart template).1.length
          PcrLogs.zero)) := by
  have hbank : ∀ p ∈ (ruleIndex flavor.Flavor.Meta.Description.FlavorPart template).1,
      ∃ r ∈ (ruleIndex flavor.Flavor.Meta.Description.FlavorPart template).2,
        r.Pcr.Bank = p.2 := by
    intro p hp
    rw [ruleIndex_fst] at hp
    obtain ⟨r, hr, -, hb⟩ := mem_buildPcrsmap _ p hp
    exact ⟨r, hr, hb⟩
  constructor
  · intro bank pcrMap slots hno
    apply bankLoop_no_match
    intro p hp
    obtain ⟨r, hr, hb⟩ := hbank p ((ord.perm k bank _).subset hp)
    rw [← hb]
    exact hno r hr
  · intro hno
    simp only [projectTemplate]
    apply banksLoop_no_match D (ord.enum k) _ _ (fun bank => ord.perm k bank _)
    intro b hb p hp
    obtain ⟨r, hr, hrb⟩ := hbank p hp
    rw [← hrb]
    exact hno b hb r hr

/-- C5, instance: an entry whose only bank is SHA1, projected with a template
whose only rule is for SHA256: one pre-sized slot, left zero-valued. -/
theorem never_matching_bank_witness :
    (∀ b ∈ entrySha1.Flavor.Pcrs.getD [],
        ∀ r ∈ (ruleIndex entrySha1.Flavor.Meta.Description.FlavorPart tplPlatform).2,
          Decls.std.SHAAlgorithm b.1 ≠ Decls.std.SHAAlgorithm r.Pcr.Bank) ∧
    projectTemplate Decls.std (RangeOrder.listed.enum 0) entrySha1 tplPlatform =
      some [PcrLogs.zero] :=
  ⟨by decide, (never_matching_bank Decls.std RangeOrder.listed 0 entrySha1 tplPlatform).2
    (by decide)⟩

/-! ## Document assembler: lemmas -/

/-- Appending template identifiers changes the template-id list only. -/
theorem appendIds_eq (stored : SignedFlavor) (ts : List FlavorTemplate) :
    appendIds stored ts =
      { stored with Flavor := { stored.Flavor with Meta := { stored.Flavor.Meta with
          Description := { stored.Flavor.Meta.Description with
            FlavorTemplateIds :=
              stored.Flavor.Meta.Description.FlavorTemplateIds ++ ts.map (fun t => t.ID) } } } } := by
  induction ts generalizing stored with
  | nil => simp [appendIds]
  | cons t rest ih =>
    have h := ih (appendTemplateId stored t.ID)
    simp only [appendIds, List.foldl_cons] at h ⊢
    rw [h]
    simp [appendTemplateId]

/-- The meta update changes at most the two flags of the description. -/
theorem updateMeta_frame (flavor stored : SignedFlavor) :
    (updateMeta flavor stored).Signature = stored.Signature ∧
    (updateMeta flavor stored).Flavor.Hardware = stored.Flavor.Hardware ∧
    (updateMeta flavor stored).Flavor.Pcrs = stored.Flavor.Pcrs ∧
    (updateMeta flavor stored).Flavor.PcrLogs = stored.Flavor.PcrLogs ∧
    (updateMeta flavor stored).Flavor.Meta.Description.FlavorPart =
      stored.Flavor.Meta.Description.FlavorPart ∧
    (updateMeta flavor stored).Flavor.Meta.Description.FlavorTemplateIds =
      stored.Flavor.Meta.Description.FlavorTemplateIds := by
  unfold updateMeta
  split
  · simp [setCbntEnabled]
  · split
    · simp [setSuefiEnabled]
    · simp

/-- The two flags after the meta update. -/
theorem updateMeta_flags (flavor stored : SignedFlavor) :
    (updateMeta flavor stored).Flavor.Meta.Description.CbntEnabled =
      (cbntReported flavor || stored.Flavor.Meta.Description.CbntEnabled) ∧
    (updateMeta flavor stored).Flavor.Meta.Description.SuefiEnabled =
      ((!cbntReported flavor && suefiReported flavor) ||
        stored.Flavor.Meta.Description.SuefiEnabled) := by
  unfold updateMeta
  cases hc : cbntReported flavor <;> cases hs : suefiReported flavor <;>
    simp [setCbntEnabled, setSuefiEnabled]

/-- Every entry converts; the result is the entry after the meta update with
the signature cleared, and, for an entry with PCR data, with the template
identifiers appended, the legacy map removed and some slice attached. -/
theorem convertEntry_total (D : Decls) (ord : RangeOrder) (ts : List FlavorTemplate)
    (e : SignedFlavor) :
    ∃ out, convertEntry D ord ts e = some out ∧
      out.Signature = "" ∧ out.Flavor.Pcrs = none ∧
      out.Flavor.Hardware = e.Flavor.Hardware ∧
      out.Flavor.Meta.Description.FlavorPart = e.Flavor.Meta.Description.FlavorPart ∧
      out.Flavor.Meta.Description.CbntEnabled =
        (updateMeta e e).Flavor.Meta.Description.CbntEnabled ∧
      out.Flavor.Meta.Description.SuefiEnabled =
        (updateMeta e e).Flavor.Meta.Description.SuefiEnabled := by
  obtain ⟨h1, h2, h3, h4, h5, h6⟩ := updateMeta_frame e e
  cases hp : e.Flavor.Pcrs with
  | none =>
    refine ⟨clearSignature (updateMeta e e), by simp [convertEntry, hp], rfl, ?_, ?_, ?_, rfl, rfl⟩
    · simpa [clearSignature, hp] using h3
    · simpa [clearSignature] using h2
    · simpa [clearSignature] using h5
  | some p =>
    obtain ⟨logs, hl⟩ := convertEntry_pcrs D ord ts e (by simp [hp])
    refine ⟨_, hl, ?_, ?_, ?_, ?_, ?_, ?_⟩ <;>
      simp [appendIds_eq, storePcrLogs, clearSignature, h2, h5]

/-- A template without section for the category has an empty rule index and
an empty rule list. -/
theorem ruleIndex_noSection (flavorname : String) (t : FlavorTemplate)
    (h : NoSection flavorname t) : ruleIndex flavorname t = ([], []) := by
  obtain ⟨h1, h2, h3⟩ := h
  unfold ruleIndex
  split
  · rename_i part hd hs
    rw [h1 (of_decide_eq_true hd)] at hs
    simp at hs
  · split
    · rename_i part hd hs
      rw [h2 (of_decide_eq_true hd)] at hs
      simp at hs
    · split
      · rename_i part hd hs
        rw [h3 (of_decide_eq_true hd)] at hs
        simp at hs
      · rfl

/-! ## Document assembler: results -/

/-- The two flags of the output entry, for any input entry: the flag of the
reported feature is true (CBNT first, SUEFI only when CBNT is not reported)
and the other flag is what the input entry had; the conversion never changes
both flags of one entry. -/
theorem convertEntry_flags (D : Decls) (ord : RangeOrder) (ts : List FlavorTemplate)
    (e : SignedFlavor) :
    ∃ out, convertEntry D ord ts e = some out ∧
      out.Flavor.Meta.Description.CbntEnabled =
        (cbntReported e || e.Flavor.Meta.Description.CbntEnabled) ∧
      out.Flavor.Meta.Description.SuefiEnabled =
        ((!cbntReported e && suefiReported e) || e.Flavor.Meta.Description.SuefiEnabled) := by
  obtain ⟨out, hout, -, -, -, -, hc, hs⟩ := convertEntry_total D ord ts e
  obtain ⟨fc, fs⟩ := updateMeta_flags e e
  exact ⟨out, hout, hc.trans fc, hs.trans fs⟩

/-- C6. Meta flags: every legacy entry (its description carries neither flag,
the flags belong to the new schema) converts, and in the output entry: if the
hardware block reports CBNT enabled, `CbntEnabled` is true and `SuefiEnabled`
is unset, also when SUEFI is reported enabled too; if SUEFI is reported
enabled and CBNT is absent or not enabled, `SuefiEnabled` is true (and
`CbntEnabled` unset); if neither is reported both stay unset.  In no case
does the output entry have both flags set. -/
theorem meta_flags (D : Decls) (ord : RangeOrder) (ts : List FlavorTemplate)
    (e : SignedFlavor)
    (hc0 : e.Flavor.Meta.Description.CbntEnabled = false)
    (hs0 : e.Flavor.Meta.Description.SuefiEnabled = false) :
    ∃ out, convertEntry D ord ts e = some out ∧
      (cbntReported e = true →
        out.Flavor.Meta.Description.CbntEnabled = true ∧
        out.Flavor.Meta.Description.SuefiEnabled = false) ∧
      (cbntReported e = false → suefiReported e = true →
        out.Flavor.Meta.Description.SuefiEnabled = true ∧
        out.Flavor.Meta.Description.CbntEnabled = false) ∧
      (cbntReported e = false → suefiReported e = false →
        out.Flavor.Meta.Description.CbntEnabled = false ∧
        out.Flavor.Meta.Description.SuefiEnabled = false) ∧
      ¬ (out.Flavor.Meta.Description.CbntEnabled = true ∧
         out.Flavor.Meta.Description.SuefiEnabled = true) := by
  obtain ⟨out, hout, hc, hs⟩ := convertEntry_flags D ord ts e
  rw [hc0, Bool.or_false] at hc
  rw [hs0, Bool.or_false] at hs
  refine ⟨out, hout, ?_, ?_, ?_, ?_⟩
  · intro h
    simp [hc, hs, h]
  · intro h1 h2
    simp [hc, hs, h1, h2]
  · intro h1 h2
    simp [hc, hs, h1, h2]
  · rw [hc, hs]
    cases cbntReported e <;> cases suefiReported e <;> simp

/-- C6, instance: a legacy entry whose hardware block reports both CBNT and
SUEFI enabled. -/
theorem meta_flags_witness :
    (cbntReported entryCbntAndSuefi = true ∧ suefiReported entryCbntAndSuefi = true) ∧
    ∃ out, convertEntry Decls.std RangeOrder.listed [tplPlatform] entryCbntAndSuefi
        = some out ∧
      (cbntReported entryCbntAndSuefi = true →
        out.Flavor.Meta.Description.CbntEnabled = true ∧
        out.Flavor.Meta.Description.SuefiEnabled = false) ∧
      (cbntReported entryCbntAndSuefi = false → suefiReported entryCbntAndSuefi = true →
        out.Flavor.Meta.Description.SuefiEnabled = true ∧
        out.Flavor.Meta.Description.CbntEnabled = false) ∧
      (cbntReported entryCbntAndSuefi = false → suefiReported entryCbntAndSuefi = false →
        out.Flavor.Meta.Description.CbntEnabled = false ∧
        out.Flavor.Meta.Description.SuefiEnabled = false) ∧
      ¬ (out.Flavor.Meta.Description.CbntEnabled = true ∧
         out.Flavor.Meta.Description.SuefiEnabled = true) :=
  ⟨by decide,
   meta_flags Decls.std RangeOrder.listed [tplPlatform] entryCbntAndSuefi
    (by decide) (by decide)⟩

/-- C7, as stated, fails: an entry without PCR data whose hardware block
reports CBNT enabled is not converted to the input with the signature
cleared; its `CbntEnabled` flag is set as well. -/
theorem entry_without_pcrs_counterexample :
    entryCbnt.Flavor.Pcrs = none ∧
    convertEntry Decls.std RangeOrder.listed [tplPlatform] entryCbnt
      ≠ some (clearSignature entryCbnt) ∧
    (convertEntry Decls.std RangeOrder.listed [tplPlatform] entryCbnt).map
        (fun out => out.Flavor.Meta.Description.CbntEnabled) = some true ∧
    entryCbnt.Flavor.Meta.Description.CbntEnabled = false := by
  decide

/-- C7, amended. An entry whose legacy PCR map is absent converts, for every
list of selected templates, to the input entry with the signature cleared and
the meta flag of the reported feature set: the template-id list, the
category, the hardware block, the (absent) legacy map and the projected slice
are those of the input; and when neither CBNT nor SUEFI is reported enabled
the output is the input with the signature cleared. -/
theorem entry_without_pcrs (D : Decls) (ord : RangeOrder) (ts : List FlavorTemplate)
    (e : SignedFlavor) (hp : e.Flavor.Pcrs = none) :
    ∃ out, convertEntry D ord ts e = some out ∧
      out = clearSignature (updateMeta e e) ∧
      out.Signature = "" ∧
      out.Flavor.Meta.Description.FlavorTemplateIds =
        e.Flavor.Meta.Description.FlavorTemplateIds ∧
      out.Flavor.Meta.Description.FlavorPart = e.Flavor.Meta.Description.FlavorPart ∧
      out.Flavor.Hardware = e.Flavor.Hardware ∧
      out.Flavor.Pcrs = e.Flavor.Pcrs ∧
      out.Flavor.PcrLogs = e.Flavor.PcrLogs ∧
      (cbntReported e = false → suefiReported e = false → out = clearSignature e) := by
  obtain ⟨-, h2, h3, h4, h5, h6⟩ := updateMeta_frame e e
  refine ⟨clearSignature (updateMeta e e), by simp [convertEntry, hp], rfl, rfl,
    ?_, ?_, ?_, ?_, ?_, ?_⟩
  · simpa [clearSignature] using h6
  · simpa [clearSignature] using h5
  · simpa [clearSignature] using h2
  · simpa [clearSignature] using h3
  · simpa [clearSignature] using h4
  · intro h1 h2
    simp [updateMeta, h1, h2]

/-- C7, instance: an entry without PCR data and without hardware block. -/
theorem entry_without_pcrs_witness :
    ∃ out, convertEntry Decls.std RangeOrder.listed [tplPlatform] entryNoPcrs = some out ∧
      out = clearSignature (updateMeta entryNoPcrs entryNoPcrs) ∧
      out.Signature = "" ∧
      out.Flavor.Meta.Description.FlavorTemplateIds =
        entryNoPcrs.Flavor.Meta.Description.FlavorTemplateIds ∧
      out.Flavor.Meta.Description.FlavorPart =
        entryNoPcrs.Flavor.Meta.Description.FlavorPart ∧
      out.Flavor.Hardware = entryNoPcrs.Flavor.Hardware ∧
      out.Flavor.Pcrs = entryNoPcrs.Flavor.Pcrs ∧
      out.Flavor.PcrLogs = entryNoPcrs.Flavor.PcrLogs ∧
      (cbntReported entryNoPcrs = false → suefiReported entryNoPcrs = false →
        out = clearSignature entryNoPcrs) :=
  entry_without_pcrs Decls.std RangeOrder.listed [tplPlatform] entryNoPcrs (by decide)

/-- C8. Removed fields: the loop over the entries returns as many entries as
it was given, and every output entry has an empty signature and no legacy PCR
map, whether or not the input entry had PCR data and whatever templates were
selected. -/
theorem removed_fields (D : Decls) (ords : Nat → RangeOrder) (templates : List FlavorTemplate)
    (n : Nat) (entries : List SignedFlavor) :
    ∃ outs, convertEntries D ords templates n entries = some outs ∧
      outs.length = entries.length ∧
      ∀ out ∈ outs, out.Signature = "" ∧ out.Flavor.Pcrs = none := by
  induction entries generalizing n with
  | nil => exact ⟨[], rfl, rfl, by simp⟩
  | cons e rest ih =>
    obtain ⟨out, hout, hsig, hpcrs, -⟩ := convertEntry_total D (ords n) templates e
    obtain ⟨outs, houts, hlen, hall⟩ := ih (n + 1)
    refine ⟨out :: outs, by simp [convertEntries, hout, houts], by simp [hlen], ?_⟩
    intro o ho
    rcases List.mem_cons.1 ho with h | h
    · subst h
      exact ⟨hsig, hpcrs⟩
    · exact hall o h

/-- C9. Overwrite semantics: for an entry with PCR data and a template list
ending in `t`, the conversion returns, the projection of `t` from the entry
returns, and the slice stored in the output entry is that projection; it is
also the slice of the entry converted with `t` alone (under the visiting
orders of `t`). -/
theorem overwrite_semantics (D : Decls) (ord : RangeOrder) (ts : List FlavorTemplate)
    (t : FlavorTemplate) (e : SignedFlavor) (hp : e.Flavor.Pcrs ≠ none) :
    ∃ out logs alone, convertEntry D ord (ts ++ [t]) e = some out ∧
      projectTemplate D (ord.enum ts.length) e t = some logs ∧
      out.Flavor.PcrLogs = some logs ∧
      convertEntry D (ord.shift ts.length) [t] e = some alone ∧
      out.Flavor.PcrLogs = alone.Flavor.PcrLogs := by
  obtain ⟨logs, hl, hc⟩ := convertEntry_last D ord ts t e hp
  obtain ⟨logs1, hl1, hc1⟩ := convertEntry_last D (ord.shift ts.length) [] t e hp
  have hsame : logs1 = logs := by
    have h : projectTemplate D (ord.enum (ts.length + 0)) e t = some logs1 := hl1
    rw [Nat.add_zero, hl] at h
    exact (Option.some.inj h).symm
  subst hsame
  exact ⟨_, logs1, _, hc, hl, rfl, hc1, rfl⟩

/-- C9, instance: two selected templates, the second without rules for the
category, then the PLATFORM template last. -/
theorem overwrite_semantics_witness :
    ∃ out logs alone,
      convertEntry Decls.std RangeOrder.listed ([tplPlatform, tplVendor] ++ [tplPlatform])
        entryPlatform = some out ∧
      projectTemplate Decls.std (RangeOrder.listed.enum [tplPlatform, tplVendor].length)
        entryPlatform tplPlatform = some logs ∧
      out.Flavor.PcrLogs = some logs ∧
      convertEntry Decls.std (RangeOrder.listed.shift [tplPlatform, tplVendor].length)
        [tplPlatform] entryPlatform = some alone ∧
      out.Flavor.PcrLogs = alone.Flavor.PcrLogs :=
  overwrite_semantics Decls.std RangeOrder.listed [tplPlatform, tplVendor] tplPlatform
    entryPlatform (by decide)

/-- C10, as stated, fails: after the PLATFORM template the entry's slice has
one populated slot; the next selected template has no section for PLATFORM,
and after it the slice is empty. -/
theorem no_rules_template_counterexample :
    NoSection entryPlatform.Flavor.Meta.Description.FlavorPart tplVendor ∧
    (convertEntry Decls.std RangeOrder.listed [tplPlatform] entryPlatform).map
        (fun out => out.Flavor.PcrLogs) =
      some (some [{ PCR := { Index := 0, Bank := "SHA256" }, Measurement := "abc123",
                    PCRMatches := true, EventlogEqual := none, EventlogIncludes := none }]) ∧
    (convertEntry Decls.std RangeOrder.listed [tplPlatform, tplVendor] entryPlatform).map
        (fun out => out.Flavor.PcrLogs) = some (some []) := by
  refine ⟨⟨fun _ => rfl, fun _ => rfl, fun _ => rfl⟩, by decide, by decide⟩

/-- C10, amended. For an entry with PCR data and a selected template that has
no rule list for the entry's category, processing that template is not an
error: the conversion of a template list ending in it returns, and the
entry's projected slice after that template is the empty slice, whatever the
earlier templates projected. -/
theorem no_rules_template (D : Decls) (ord : RangeOrder) (ts : List FlavorTemplate)
    (t : FlavorTemplate) (e : SignedFlavor) (hp : e.Flavor.Pcrs ≠ none)
    (hno : NoSection e.Flavor.Meta.Description.FlavorPart t) :
    ∃ out, convertEntry D ord (ts ++ [t]) e = some out ∧
      projectTemplate D (ord.enum ts.length) e t = some [] ∧
      out.Flavor.PcrLogs = some [] := by
  obtain ⟨logs, hl, hc⟩ := convertEntry_last D ord ts t e hp
  obtain ⟨logs2, hl2, hlen⟩ := projectTemplate_total D ord ts.length e t
  rw [ruleIndex_noSection _ _ hno] at hlen
  rw [hl] at hl2
  obtain rfl := Option.some.inj hl2
  have hnil : logs = [] := List.eq_nil_of_length_eq_zero hlen
  subst hnil
  exact ⟨_, hc, hl, rfl⟩

/-- C10, instance: the PLATFORM template followed by a template without any
section. -/
theorem no_rules_template_witness :
    ∃ out, convertEntry Decls.std RangeOrder.listed ([tplPlatform] ++ [tplVendor])
        entryPlatform = some out ∧
      projectTemplate Decls.std (RangeOrder.listed.enum [tplPlatform].length)
        entryPlatform tplVendor = some [] ∧
      out.Flavor.PcrLogs = some [] :=
  no_rules_template Decls.std RangeOrder.listed [tplPlatform] tplVendor entryPlatform
    (by decide) ⟨fun _ => rfl, fun _ => rfl, fun _ => rfl⟩

/-! ## Template selection: errors, order and duplicates -/

/-- The template loop fails exactly when some raw template of the library
does not unmarshal. -/
theorem templateLoop_error_iff {Doc Node : Type} (L : JsonLib Doc Node) (doc : Doc)
    (lib : List String) (acc : List FlavorTemplate) :
    (∃ msg, templateLoop L doc lib acc = .error msg) ↔
      ∃ raw ∈ lib, L.Unmarshal raw = none := by
  induction lib generalizing acc with
  | nil => simp [templateLoop]
  | cons raw rest ih =>
    cases hu : L.Unmarshal raw with
    | none =>
      constructor
      · intro _
        exact ⟨raw, List.mem_cons_self _ _, hu⟩
      · intro _
        simp only [templateLoop, hu]
        exact ⟨_, rfl⟩
    | some t =>
      have hrhs : (∃ r ∈ raw :: rest, L.Unmarshal r = none) ↔
          ∃ r ∈ rest, L.Unmarshal r = none := by
        constructor
        · rintro ⟨r, hr, hn⟩
          rcases List.mem_cons.1 hr with h | h
          · subst h
            rw [hu] at hn
            exact absurd hn (by simp)
          · exact ⟨r, h, hn⟩
        · rintro ⟨r, hr, hn⟩
          exact ⟨r, List.mem_cons_of_mem _ hr, hn⟩
      rw [hrhs]
      simp only [templateLoop, hu]
      split
      · exact ih acc
      · split
        · exact ih _
        · exact ih acc

/-- C11. Abort on malformed input: `findTemplatesToApply` returns an error
(and so no template list) if and only if the document fails to parse or some
template of the library fails to unmarshal.  A malformed template makes the
call fail wherever it stands in the library, whatever precedes and follows
it; a returned list means that the document and every template parsed. -/
theorem abort_on_malformed_input {Doc Node : Type} (L : JsonLib Doc Node)
    (oldFlavorPart : String) (lib : List String) :
    ((∃ msg, findTemplatesToApply L oldFlavorPart lib = .error msg) ↔
      (L.Parse oldFlavorPart = none ∨ ∃ raw ∈ lib, L.Unmarshal raw = none)) ∧
    (∀ pre post raw, L.Unmarshal raw = none →
      ∃ msg, findTemplatesToApply L oldFlavorPart (pre ++ raw :: post) = .error msg) ∧
    (∀ result, findTemplatesToApply L oldFlavorPart lib = .ok result →
      L.Parse oldFlavorPart ≠ none ∧ ∀ raw ∈ lib, (L.Unmarshal raw).isSome = true) := by
  have hiff : ∀ l : List String, (∃ msg, findTemplatesToApply L oldFlavorPart l = .error msg) ↔
      (L.Parse oldFlavorPart = none ∨ ∃ raw ∈ l, L.Unmarshal raw = none) := by
    intro l
    unfold findTemplatesToApply
    cases hp : L.Parse oldFlavorPart with
    | none => simp
    | some doc =>
      simp only [false_or, reduceCtorEq]
      exact templateLoop_error_iff L doc l []
  refine ⟨hiff lib, ?_, ?_⟩
  · intro pre post raw hraw
    exact (hiff _).2 (Or.inr ⟨raw, by simp, hraw⟩)
  · intro result hres
    have hno : ¬ (L.Parse oldFlavorPart = none ∨ ∃ raw ∈ lib, L.Unmarshal raw = none) := by
      intro h
      obtain ⟨msg, hmsg⟩ := (hiff lib).2 h
      rw [hmsg] at hres
      exact absurd hres (by simp)
    refine ⟨fun h => hno (Or.inl h), fun raw hraw => ?_⟩
    cases hu : L.Unmarshal raw with
    | none => exact absurd (Or.inr ⟨raw, hraw, hu⟩) hno
    | some t => rfl

/-- C11, instance: a library whose first template is selected and whose second
raw template is malformed; the call fails. -/
theorem abort_on_malformed_input_witness :
    (∃ result, findTemplatesToApply toyLib "//meta/vendor//*[text()='INTEL']" ["vendor"]
        = .ok result ∧ tplVendor ∈ result) ∧
    ∃ msg, findTemplatesToApply toyLib "//meta/vendor//*[text()='INTEL']"
        (["vendor"] ++ "broken" :: []) = .error msg :=
  ⟨⟨[tplVendor], rfl, by decide⟩,
   (abort_on_malformed_input toyLib "//meta/vendor//*[text()='INTEL']" []).2.1
    ["vendor"] [] "broken" (by decide)⟩

/-- An identifier that is not a key of the table translates to the empty
query string. -/
theorem conditionQuery_unknown (c : String)
    (hc : c ∉ flavorTemplateConditions.map Prod.fst) : conditionQuery c = "" := by
  have h : flavorTemplateConditions.lookup c = none := by
    rw [List.lookup_eq_none_iff]
    intro p hp
    simp only [bne_iff_ne, ne_eq]
    intro hk
    exact hc (List.mem_map.2 ⟨p, hp, hk.symm⟩)
  simp [conditionQuery, h]

/-- C12. Unknown condition identifiers: the table lookup of an identifier
that is not a key gives the empty query string, and the error of the query is
discarded.  With a library whose `Query` returns the nil node on the empty
expression, for a document that parses and a library whose templates all
parse, the call returns a list (the unknown identifier causes no failure) and
a template with a non-empty label whose condition list contains such an
identifier has a false condition loop and is not in the list. -/
theorem unknown_condition_not_selected {Doc Node : Type} (L : JsonLib Doc Node)
    (oldFlavorPart : String) (lib : List String) (doc : Doc) (t : FlavorTemplate)
    (c : String)
    (hdoc : L.Parse oldFlavorPart = some doc)
    (hlib : ∀ raw ∈ lib, (L.Unmarshal raw).isSome = true)
    (hempty : L.Query doc "" = none)
    (hlabel : t.Label ≠ "")
    (hc : c ∈ t.Condition)
    (hkey : c ∉ flavorTemplateConditions.map Prod.fst) :
    conditionQuery c = "" ∧
    conditionLoop L doc t.Condition false = false ∧
    ∃ result, findTemplatesToApply L oldFlavorPart lib = .ok result ∧ t ∉ result := by
  have hq := conditionQuery_unknown c hkey
  have hnot : ¬ Selected L doc t := by
    intro hsel
    have h := hsel.2.2 c hc
    rw [hq, hempty] at h
    simp at h
  refine ⟨hq, ?_, (lib.filterMap L.Unmarshal).filter (keeps L doc), ?_, ?_⟩
  · cases hl : conditionLoop L doc t.Condition false with
    | false => rfl
    | true =>
      exact absurd ((keeps_iff L doc t).1 (by simp [keeps, hlabel, hl])) hnot
  · simp [findTemplatesToApply, hdoc, templateLoop_ok L doc lib [] hlib]
  · intro hmem
    exact hnot ((keeps_iff L doc t).1 (List.mem_filter.1 hmem).2)

/-- C12, instance: a library containing the vendor template and a template
whose second condition is unknown; its first condition holds on the
document. -/
theorem unknown_condition_not_selected_witness :
    (toyLibUnknown.Query "//meta/vendor//*[text()='INTEL']"
        (conditionQuery "//host_info/vendor//*[text()='Linux']")).isSome = true ∧
    conditionQuery "//host_info/not_in_table" = "" ∧
    conditionLoop toyLibUnknown "//meta/vendor//*[text()='INTEL']" tplUnknown.Condition false
      = false ∧
    ∃ result, findTemplatesToApply toyLibUnknown "//meta/vendor//*[text()='INTEL']"
        ["unknown", "vendor"] = .ok result ∧ tplUnknown ∉ result :=
  ⟨by decide,
   unknown_condition_not_selected toyLibUnknown "//meta/vendor//*[text()='INTEL']"
    ["unknown", "vendor"] "//meta/vendor//*[text()='INTEL']" tplUnknown
    "//host_info/not_in_table" (by decide) (by decide) (by decide) (by decide) (by decide)
    (by decide)⟩

/-- C13. Selection order and duplicates: for a document that parses and
libraries `A` and `B` whose templates all parse, selecting from `A ++ B` gives
the selection from `A` followed by the selection from `B`; the selection from
`A` is the list of parsed templates of `A` with the unselected ones removed,
in library order, and a selected template occurs in it as often as among the
parsed templates of `A`. -/
theorem selection_order {Doc Node : Type} (L : JsonLib Doc Node)
    (oldFlavorPart : String) (A B : List String) (doc : Doc)
    (hdoc : L.Parse oldFlavorPart = some doc)
    (hA : ∀ raw ∈ A, (L.Unmarshal raw).isSome = true)
    (hB : ∀ raw ∈ B, (L.Unmarshal raw).isSome = true) :
    ∃ ra rb, findTemplatesToApply L oldFlavorPart A = .ok ra ∧
      findTemplatesToApply L oldFlavorPart B = .ok rb ∧
      findTemplatesToApply L oldFlavorPart (A ++ B) = .ok (ra ++ rb) ∧
      ra = (A.filterMap L.Unmarshal).filter (keeps L doc) ∧
      ra.Sublist (A.filterMap L.Unmarshal) ∧
      ∀ t, Selected L doc t → ra.count t = (A.filterMap L.Unmarshal).count t := by
  have hAB : ∀ raw ∈ A ++ B, (L.Unmarshal raw).isSome = true := by
    intro raw hraw
    rcases List.mem_append.1 hraw with h | h
    · exact hA raw h
    · exact hB raw h
  refine ⟨(A.filterMap L.Unmarshal).filter (keeps L doc),
    (B.filterMap L.Unmarshal).filter (keeps L doc), ?_, ?_, ?_, rfl, List.filter_sublist _, ?_⟩
  · simp [findTemplatesToApply, hdoc, templateLoop_ok L doc A [] hA]
  · simp [findTemplatesToApply, hdoc, templateLoop_ok L doc B [] hB]
  · simp [findTemplatesToApply, hdoc, templateLoop_ok L doc (A ++ B) [] hAB,
      List.filterMap_append]
  · intro t ht
    exact List.count_filter ((keeps_iff L doc t).2 ht)

/-- C13, instance: the vendor template twice in the first library and once in
the second; it is selected three times. -/
theorem selection_order_witness :
    ∃ ra rb, findTemplatesToApply toyLib "//meta/vendor//*[text()='INTEL']"
        ["vendor", "tpm", "vendor"] = .ok ra ∧
      findTemplatesToApply toyLib "//meta/vendor//*[text()='INTEL']" ["vendor"] = .ok rb ∧
      findTemplatesToApply toyLib "//meta/vendor//*[text()='INTEL']"
        (["vendor", "tpm", "vendor"] ++ ["vendor"]) = .ok (ra ++ rb) ∧
      ra = (["vendor", "tpm", "vendor"].filterMap toyLib.Unmarshal).filter
        (keeps toyLib "//meta/vendor//*[text()='INTEL']") ∧
      ra.Sublist (["vendor", "tpm", "vendor"].filterMap toyLib.Unmarshal) ∧
      ∀ t, Selected toyLib "//meta/vendor//*[text()='INTEL']" t →
        ra.count t = (["vendor", "tpm", "vendor"].filterMap toyLib.Unmarshal).count t :=
  selection_order toyLib "//meta/vendor//*[text()='INTEL']" ["vendor", "tpm", "vendor"]
    ["vendor"] "//meta/vendor//*[text()='INTEL']" (by decide) (by decide) (by decide)

/-! ## Size of the rule index -/

/-- The keys of the map after an assignment: unchanged when the key was
present, extended by the key otherwise. -/
theorem keys_mapInsert (k : Int) (v : String) (m : List (Int × String)) :
    (mapInsert k v m).map Prod.fst =
      if k ∈ m.map Prod.fst then m.map Prod.fst else m.map Prod.fst ++ [k] := by
  induction m with
  | nil => simp [mapInsert]
  | cons p rest ih =>
    obtain ⟨k', v'⟩ := p
    simp only [mapInsert]
    by_cases hk : k' = k
    · subst hk
      simp
    · have hk' : ¬ k = k' := fun h => hk h.symm
      simp only [hk, if_false, List.map_cons, ih, List.mem_cons, hk', false_or]
      split <;> simp

/-- The keys of the rule index built on `acc` have no duplicate when those of
`acc` have none, and are the keys of `acc` and the indices of the rules. -/
theorem keys_foldl_mapInsert (rules : PcrRules) (acc : List (Int × String))
    (hacc : (acc.map Prod.fst).Nodup) :
    ((rules.foldl (fun pcrsmap r => mapInsert r.Pcr.Index r.Pcr.Bank pcrsmap) acc).map
        Prod.fst).Nodup ∧
    ∀ i, i ∈ (rules.foldl (fun pcrsmap r => mapInsert r.Pcr.Index r.Pcr.Bank pcrsmap) acc).map
        Prod.fst ↔ i ∈ acc.map Prod.fst ∨ i ∈ rules.map (fun r => r.Pcr.Index) := by
  induction rules generalizing acc with
  | nil => exact ⟨hacc, fun i => by simp⟩
  | cons r rest ih =>
    have hkeys := keys_mapInsert r.Pcr.Index r.Pcr.Bank acc
    have hnd : ((mapInsert r.Pcr.Index r.Pcr.Bank acc).map Prod.fst).Nodup := by
      rw [hkeys]
      split
      · exact hacc
      · rename_i hnot
        rw [List.nodup_append]
        refine ⟨hacc, List.nodup_singleton _, ?_⟩
        intro a ha hb
        rw [List.mem_singleton] at hb
        subst hb
        exact hnot ha
    have hmem : ∀ i, i ∈ (mapInsert r.Pcr.Index r.Pcr.Bank acc).map Prod.fst ↔
        i ∈ acc.map Prod.fst ∨ i = r.Pcr.Index := by
      intro i
      rw [hkeys]
      split
      · rename_i hin
        constructor
        · exact fun h => Or.inl h
        · rintro (h | h)
          · exact h
          · rw [h]
            exact hin
      · simp
    obtain ⟨h1, h2⟩ := ih (mapInsert r.Pcr.Index r.Pcr.Bank acc) hnd
    refine ⟨h1, fun i => ?_⟩
    simp only [List.foldl_cons, List.map_cons, List.mem_cons]
    rw [h2 i, hmem i]
    tauto

/-- The rule index has one pair per distinct PCR index of the rule list. -/
theorem buildPcrsmap_length_eq (rules : PcrRules) :
    (buildPcrsmap rules).length = ((rules.map (fun r => r.Pcr.Index)).dedup).length := by
  obtain ⟨hnd, hmem⟩ := keys_foldl_mapInsert rules [] (by simp)
  have hperm : ((buildPcrsmap rules).map Prod.fst).Perm
      ((rules.map (fun r => r.Pcr.Index)).dedup) := by
    show ((rules.foldl (fun pcrsmap r => mapInsert r.Pcr.Index r.Pcr.Bank pcrsmap) []).map
      Prod.fst).Perm ((rules.map (fun r => r.Pcr.Index)).dedup)
    rw [List.perm_ext_iff_of_nodup hnd (List.nodup_dedup _)]
    intro i
    rw [List.mem_dedup]
    have h := hmem i
    simp only [List.map_nil, List.not_mem_nil, false_or] at h
    exact h
  have hlen := hperm.length_eq
  simpa using hlen

/-- C14. Output size: the projection of a template from an entry returns a
slice whose length is the number of pairs of the rule index, which is the
number of distinct PCR indices among the rules of the entry's category,
whatever the legacy PCR map holds; it is at most the length of the rule list
and strictly less when two rules share a PCR index. -/
theorem output_size (D : Decls) (ord : RangeOrder) (k : Nat) (e : SignedFlavor)
    (t : FlavorTemplate) :
    ∃ logs, projectTemplate D (ord.enum k) e t = some logs ∧
      logs.length = (ruleIndex e.Flavor.Meta.Description.FlavorPart t).1.length ∧
      logs.length =
        (((ruleIndex e.Flavor.Meta.Description.FlavorPart t).2.map
          (fun r => r.Pcr.Index)).dedup).length ∧
      logs.length ≤ (ruleIndex e.Flavor.Meta.Description.FlavorPart t).2.length ∧
      (¬ ((ruleIndex e.Flavor.Meta.Description.FlavorPart t).2.map
            (fun r => r.Pcr.Index)).Nodup →
        logs.length < (ruleIndex e.Flavor.Meta.Description.FlavorPart t).2.length) := by
  obtain ⟨logs, hl, hlen⟩ := projectTemplate_total D ord k e t
  have hd : logs.length =
      (((ruleIndex e.Flavor.Meta.Description.FlavorPart t).2.map
        (fun r => r.Pcr.Index)).dedup).length := by
    rw [hlen, ruleIndex_fst, buildPcrsmap_length_eq]
  have hsub := List.dedup_sublist
    ((ruleIndex e.Flavor.Meta.Description.FlavorPart t).2.map (fun r => r.Pcr.Index))
  have hle := hsub.length_le
  rw [List.length_map] at hle
  refine ⟨logs, hl, hlen, hd, by omega, fun hnd => ?_⟩
  have hne : (((ruleIndex e.Flavor.Meta.Description.FlavorPart t).2.map
      (fun r => r.Pcr.Index)).dedup).length ≠
      ((ruleIndex e.Flavor.Meta.Description.FlavorPart t).2.map
        (fun r => r.Pcr.Index)).length := by
    intro heq
    exact hnd (List.dedup_eq_self.1 (hsub.eq_of_length heq))
  rw [List.length_map] at hne
  omega

/-- C14, instance: two rules for PCR 0 give a slice of length 1, shorter than
the rule list; and a template with rules for PCR 0 and PCR 1 gives a slice of
length 2 from an entry whose legacy map holds one measurement. -/
theorem output_size_witness :
    ((projectTemplate Decls.std (RangeOrder.listed.enum 0) entryPlatform tplTwoRules).map
        List.length = some 2 ∧
      ((entryPlatform.Flavor.Pcrs.getD []).map (fun b => b.2.length)).sum = 1) ∧
    ∃ logs, projectTemplate Decls.std (RangeOrder.listed.enum 0) entryPlatform tplSharedIndex
        = some logs ∧
      logs.length =
        (ruleIndex entryPlatform.Flavor.Meta.Description.FlavorPart tplSharedIndex).1.length ∧
      logs.length =
        (((ruleIndex entryPlatform.Flavor.Meta.Description.FlavorPart tplSharedIndex).2.map
          (fun r => r.Pcr.Index)).dedup).length ∧
      logs.length ≤
        (ruleIndex entryPlatform.Flavor.Meta.Description.FlavorPart tplSharedIndex).2.length ∧
      (¬ ((ruleIndex entryPlatform.Flavor.Meta.Description.FlavorPart tplSharedIndex).2.map
            (fun r => r.Pcr.Index)).Nodup →
        logs.length <
          (ruleIndex entryPlatform.Flavor.Meta.Description.FlavorPart tplSharedIndex).2.length) :=
  ⟨by decide, output_size Decls.std RangeOrder.listed 0 entryPlatform tplSharedIndex⟩

/-! ## Document assembler: entries and template identifiers -/

/-- The loop over the entries returns, and entry number `i` of the output is
the conversion of entry number `i` of the input. -/
theorem convertEntries_spec (D : Decls) (ords : Nat → RangeOrder)
    (templates : List FlavorTemplate) (n : Nat) (entries : List SignedFlavor) :
    ∃ outs, convertEntries D ords templates n entries = some outs ∧
      outs.length = entries.length ∧
      ∀ (i : Nat) (e : SignedFlavor), entries[i]? = some e →
        ∃ out, outs[i]? = some out ∧ convertEntry D (ords (n + i)) templates e = some out := by
  induction entries generalizing n with
  | nil => exact ⟨[], rfl, rfl, fun i e h => by simp at h⟩
  | cons e rest ih =>
    obtain ⟨out, hout, -⟩ := convertEntry_total D (ords n) templates e
    obtain ⟨outs, houts, hlen, hall⟩ := ih (n + 1)
    refine ⟨out :: outs, by simp [convertEntries, hout, houts], by simp [hlen], ?_⟩
    intro i e' hi
    cases i with
    | zero =>
      simp only [List.getElem?_cons_zero, Option.some.injEq] at hi
      subst hi
      exact ⟨out, by simp, by simpa using hout⟩
    | succ j =>
      simp only [List.getElem?_cons_succ] at hi
      obtain ⟨o, ho, hc⟩ := hall j e' hi
      have hidx : n + (j + 1) = n + 1 + j := by omega
      exact ⟨o, by simpa using ho, by rw [hidx]; exact hc⟩

/-- The loop over `A ++ B` is the loop over `A` followed by the loop over `B`,
whose entries have the numbers after those of `A`. -/
theorem convertEntries_append (D : Decls) (ords : Nat → RangeOrder)
    (templates : List FlavorTemplate) (n : Nat) (A B : List SignedFlavor) :
    ∃ a b, convertEntries D ords templates n A = some a ∧
      convertEntries D ords templates (n + A.length) B = some b ∧
      convertEntries D ords templates n (A ++ B) = some (a ++ b) := by
  induction A generalizing n with
  | nil =>
    obtain ⟨b, hb, -⟩ := convertEntries_spec D ords templates n B
    exact ⟨[], b, rfl, by simpa using hb, by simpa using hb⟩
  | cons e rest ih =>
    obtain ⟨out, hout, -⟩ := convertEntry_total D (ords n) templates e
    obtain ⟨a, b, ha, hb, hab⟩ := ih (n + 1)
    have hidx : n + (rest.length + 1) = n + 1 + rest.length := by omega
    refine ⟨out :: a, b, by simp [convertEntries, hout, ha], ?_, ?_⟩
    · rw [List.length_cons, hidx]
      exact hb
    · simp [convertEntries, hout, hab]

/-- With the same visiting orders for every entry, the loop over the entries
does not depend on the number of the first entry. -/
theorem convertEntries_const (D : Decls) (ord : RangeOrder)
    (templates : List FlavorTemplate) (n m : Nat) (entries : List SignedFlavor) :
    convertEntries D (fun _ => ord) templates n entries =
      convertEntries D (fun _ => ord) templates m entries := by
  induction entries generalizing n m with
  | nil => rfl
  | cons e rest ih =>
    simp only [convertEntries]
    rw [ih (n + 1) (m + 1)]

/-- C15. Entry independence: with the selected templates fixed, the loop over
the entries returns as many entries as it was given, and output entry `i` is
the conversion of input entry `i` with the templates (and the visiting orders
of the map ranges met for that entry), whatever the other entries are.
Converting `A ++ B` gives the conversion of `A` followed by the conversion of
`B`; with the same visiting orders for every entry this reads
`convert (A ++ B) = convert A ++ convert B`. -/
theorem entry_independence (D : Decls) (ords : Nat → RangeOrder)
    (templates : List FlavorTemplate) (n : Nat) (A B : List SignedFlavor) :
    (∃ a b, convertEntries D ords templates n A = some a ∧
      convertEntries D ords templates (n + A.length) B = some b ∧
      convertEntries D ords templates n (A ++ B) = some (a ++ b) ∧
      a.length = A.length ∧
      ∀ (i : Nat) (e : SignedFlavor), A[i]? = some e →
        ∃ out, a[i]? = some out ∧ (a ++ b)[i]? = some out ∧
          convertEntry D (ords (n + i)) templates e = some out) ∧
    (∀ ord : RangeOrder, ∃ a b,
      convertEntries D (fun _ => ord) templates 0 A = some a ∧
      convertEntries D (fun _ => ord) templates 0 B = some b ∧
      convertEntries D (fun _ => ord) templates 0 (A ++ B) = some (a ++ b)) := by
  constructor
  · obtain ⟨a, b, ha, hb, hab⟩ := convertEntries_append D ords templates n A B
    obtain ⟨a', ha', hlen, hall⟩ := convertEntries_spec D ords templates n A
    rw [ha] at ha'
    obtain rfl := Option.some.inj ha'
    refine ⟨a, b, ha, hb, hab, hlen, fun i e hi => ?_⟩
    obtain ⟨out, ho, hc⟩ := hall i e hi
    have hlt : i < a.length := by
      rcases List.getElem?_eq_some.1 ho with ⟨h, -⟩
      exact h
    exact ⟨out, ho, by rw [List.getElem?_append_left hlt]; exact ho, hc⟩
  · intro ord
    obtain ⟨a, b, ha, hb, hab⟩ := convertEntries_append D (fun _ => ord) templates 0 A B
    rw [convertEntries_const D ord templates (0 + A.length) 0 B] at hb
    exact ⟨a, b, ha, hb, hab⟩

/-- C19. Template-id accumulation: an entry with PCR data converts to an entry
whose template-id list is the input's list followed by the identifier of each
selected template, once per template and in selection order, whether or not
the template has rules for the entry's category. -/
theorem template_ids (D : Decls) (ord : RangeOrder) (ts : List FlavorTemplate)
    (e : SignedFlavor) (hp : e.Flavor.Pcrs ≠ none) :
    ∃ out, convertEntry D ord ts e = some out ∧
      out.Flavor.Meta.Description.FlavorTemplateIds =
        e.Flavor.Meta.Description.FlavorTemplateIds ++ ts.map (fun t => t.ID) := by
  obtain ⟨logs, hl⟩ := convertEntry_pcrs D ord ts e hp
  obtain ⟨-, -, -, -, -, h6⟩ := updateMeta_frame e e
  refine ⟨_, hl, ?_⟩
  rw [appendIds_eq]
  simp only [storePcrLogs, clearSignature]
  rw [h6]

/-- C19, instance: the first selected template has no section for the
category of the entry; its identifier is appended all the same. -/
theorem template_ids_witness :
    NoSection entryPlatform.Flavor.Meta.Description.FlavorPart tplVendor ∧
    ∃ out, convertEntry Decls.std RangeOrder.listed [tplVendor, tplPlatform] entryPlatform
        = some out ∧
      out.Flavor.Meta.Description.FlavorTemplateIds =
        entryPlatform.Flavor.Meta.Description.FlavorTemplateIds ++
          [tplVendor, tplPlatform].map (fun t => t.ID) :=
  ⟨⟨fun _ => rfl, fun _ => rfl, fun _ => rfl⟩,
   template_ids Decls.std RangeOrder.listed [tplVendor, tplPlatform] entryPlatform
    (by decide)⟩

/-! ## The pass over one legacy bank: positions and accesses -/

/-- A visiting order all of whose pairs name the bank's algorithm reaches
every position. -/
theorem reached_of_all (D : Decls) (bank : String) (enum : List (Int × String)) (k : Nat)
    (h : ∀ p ∈ enum, D.SHAAlgorithm bank = D.SHAAlgorithm p.2) : Reached D bank enum k := by
  intro j _ p hp
  exact h p (List.getElem?_mem hp)

/-- At a reached position whose PCR index has no legacy entry, slot
`index + k` is left as it was. -/
theorem bankLoop_skip (D : Decls) (bank : String) (pcrMap : PcrMap) (rules : PcrRules)
    (enum : List (Int × String)) (index : Nat) (slots slots' : List PcrLogs)
    (k : Nat) (mapIndex : Int) (templateBank : String)
    (h : bankLoop D bank pcrMap rules enum index slots = some slots')
    (hreach : Reached D bank enum k)
    (hk : enum[k]? = some (mapIndex, templateBank))
    (hlook : pcrMap.lookup (D.PcrIndexString mapIndex) = none) :
    slots'[index + k]? = slots[index + k]? := by
  induction enum generalizing index slots k with
  | nil => simp at hk
  | cons p rest ih =>
    obtain ⟨mi, tb⟩ := p
    have hhead : D.SHAAlgorithm bank = D.SHAAlgorithm tb :=
      hreach 0 (Nat.zero_le _) (mi, tb) (by simp)
    simp only [bankLoop, hhead, ne_eq, not_true_eq_false, if_false] at h
    cases k with
    | zero =>
      simp only [List.getElem?_cons_zero, Option.some.injEq, Prod.mk.injEq] at hk
      obtain ⟨rfl, rfl⟩ := hk
      simp only [hlook] at h
      rw [Nat.add_zero]
      exact (bankLoop_frame D bank pcrMap rules rest _ _ _ h).2 index (by omega)
    | succ k' =>
      simp only [List.getElem?_cons_succ] at hk
      have hreach' : Reached D bank rest k' := by
        intro j hj q hq
        exact hreach (j + 1) (by omega) q (by simpa using hq)
      have hidx : index + (k' + 1) = index + 1 + k' := by omega
      rw [hidx]
      split at h
      · split at h
        · rw [ih _ _ _ h hreach' hk, List.getElem?_set_ne (by omega)]
        · simp at h
      · exact ih _ _ _ h hreach' hk

/-- Every counter value at which a pass accesses the slice and the rule list
lies between the starting counter and the starting counter plus the number of
visited pairs. -/
theorem accessedIndices_bound (D : Decls) (bank : String) (pcrMap : PcrMap)
    (enum : List (Int × String)) (index : Nat) :
    ∀ i ∈ accessedIndices D bank pcrMap enum index, index ≤ i ∧ i < index + enum.length := by
  induction enum generalizing index with
  | nil => simp [accessedIndices]
  | cons p rest ih =>
    obtain ⟨mi, tb⟩ := p
    intro i hi
    simp only [accessedIndices] at hi
    simp only [List.length_cons]
    split at hi
    · simp at hi
    · split at hi
      · rcases List.mem_cons.1 hi with h | h
        · omega
        · have := ih (index + 1) i h
          omega
      · have := ih (index + 1) i hi
        omega

/-- A pass returns exactly when every counter value it accesses is within the
bounds of the slice and of the rule list. -/
theorem bankLoop_isSome_iff (D : Decls) (bank : String) (pcrMap : PcrMap) (rules : PcrRules)
    (enum : List (Int × String)) (index : Nat) (slots : List PcrLogs) :
    (∃ slots', bankLoop D bank pcrMap rules enum index slots = some slots') ↔
      ∀ i ∈ accessedIndices D bank pcrMap enum index, i < slots.length ∧ i < rules.length := by
  induction enum generalizing index slots with
  | nil => simp [bankLoop, accessedIndices]
  | cons p rest ih =>
    obtain ⟨mi, tb⟩ := p
    simp only [bankLoop, accessedIndices]
    split
    · simp
    · split
      · rename_i ex hlook
        simp only [List.mem_cons, forall_eq_or_imp]
        by_cases h1 : index < slots.length
        · by_cases h2 : index < rules.length
          · rw [List.getElem?_eq_getElem h1, List.getElem?_eq_getElem h2]
            simp only []
            rw [ih (index + 1)]
            simp [h1, h2]
          · rw [List.getElem?_eq_getElem h1, List.getElem?_eq_none (by omega)]
            simp [h2]
        · rw [List.getElem?_eq_none (by omega : slots.length ≤ index)]
          simp [h1]
      · exact ih (index + 1) slots

/-! ## The pass over one legacy bank: results -/

/-- C16. Positional rule aliasing: in a pass over a legacy bank (slice and
rule list long enough for the visiting order), a slot populated at a reached
position `p` is written from the rule at position `p` of the ordered rule
list: it has that rule's match flag, its event blocks are decided by that
rule's EventlogEquals and EventlogIncludes specs, and its PCR index is the one
visited at position `p`, whatever PCR the rule at position `p` is for.  In
the instance, the rule index of the rules for PCR 0 (flag set) and PCR 1 (flag
not set) is visited in reverse order, and slot 0 holds PCR 1 with the flag of
the rule for PCR 0. -/
theorem positional_aliasing (D : Decls) (bank : String) (pcrMap : PcrMap) (rules : PcrRules)
    (enum : List (Int × String)) (slots : List PcrLogs) (p : Nat) (mapIndex : Int)
    (templateBank : String) (ex : PcrEx)
    (hs : enum.length ≤ slots.length) (hr : enum.length ≤ rules.length)
    (hreach : Reached D bank enum p)
    (hp : enum[p]? = some (mapIndex, templateBank))
    (hlook : pcrMap.lookup (D.PcrIndexString mapIndex) = some ex) :
    (∃ slots' slot0 rule slot,
      bankLoop D bank pcrMap rules enum 0 slots = some slots' ∧
      slots[p]? = some slot0 ∧ rules[p]? = some rule ∧ slots'[p]? = some slot ∧
      slot = writeSlot bank mapIndex ex rule slot0 ∧
      slot.PCR.Index = mapIndex ∧
      slot.PCRMatches = rule.PcrMatches ∧
      (rule.EventlogEquals = none → slot.EventlogEqual = slot0.EventlogEqual) ∧
      (rule.EventlogIncludes = none → slot.EventlogIncludes = slot0.EventlogIncludes) ∧
      (ex.Event ≠ none → rule.EventlogEquals ≠ none → slot.EventlogEqual ≠ none) ∧
      (ex.Event ≠ none → rule.EventlogIncludes ≠ none → slot.EventlogIncludes ≠ none)) ∧
    (∃ out slot,
      convertEntry Decls.std RangeOrder.reversed [tplTwoRules] entryTwoPcrs = some out ∧
      (ruleIndex entryTwoPcrs.Flavor.Meta.Description.FlavorPart tplTwoRules).2 =
        [ruleSha256, ruleIndex1] ∧
      (out.Flavor.PcrLogs.getD [])[0]? = some slot ∧
      slot.PCR.Index = ruleIndex1.Pcr.Index ∧
      slot.PCR.Index ≠ ruleSha256.Pcr.Index ∧
      slot.PCRMatches = ruleSha256.PcrMatches ∧
      slot.PCRMatches ≠ ruleIndex1.PcrMatches) := by
  constructor
  · obtain ⟨slots', hrun, -⟩ := bankLoop_total D bank pcrMap rules enum 0 slots
      (by omega) (by omega)
    obtain ⟨slot0, rule, hs0, hr0, hw⟩ :=
      bankLoop_write D bank pcrMap rules enum 0 slots slots' p mapIndex templateBank ex
        hrun hreach hp hlook
    rw [Nat.zero_add] at hs0 hr0 hw
    refine ⟨slots', slot0, rule, _, hrun, hs0, hr0, hw, rfl, ?_, ?_, ?_, ?_, ?_, ?_⟩
    · simp only [writeSlot]
      cases ex.Event <;> cases rule.EventlogEquals <;> cases rule.EventlogIncludes <;> rfl
    · simp only [writeSlot]
      cases ex.Event <;> cases rule.EventlogEquals <;> cases rule.EventlogIncludes <;> rfl
    · intro h
      simp only [writeSlot, h]
      cases ex.Event <;> cases rule.EventlogIncludes <;> rfl
    · intro h
      simp only [writeSlot, h]
      cases ex.Event <;> cases rule.EventlogEquals <;> rfl
    · intro h1 h2
      simp only [writeSlot]
      cases hev : ex.Event with
      | none => exact absurd hev h1
      | some events =>
        cases heq : rule.EventlogEquals with
        | none => exact absurd heq h2
        | some spec => cases rule.EventlogIncludes <;> simp
    · intro h1 h2
      simp only [writeSlot]
      cases hev : ex.Event with
      | none => exact absurd hev h1
      | some events =>
        cases hinc : rule.EventlogIncludes with
        | none => exact absurd hinc h2
        | some inc => cases rule.EventlogEquals <;> simp
  · exact ⟨_, { PCR := { Index := 1, Bank := "SHA256" }, Measurement := "v1",
                PCRMatches := true, EventlogEqual := none, EventlogIncludes := none },
      rfl, by decide, by decide, by decide, by decide, by decide, by decide⟩

/-- C16, instance: the pass over SHA256 that visits PCR 1 before PCR 0, with
the rule list in the order PCR 0, PCR 1. -/
theorem positional_aliasing_witness :
    ∃ slot, (bankLoop Decls.std "SHA256" pcrMapTwo [ruleSha256, ruleIndex1]
        [(1, "SHA256"), (0, "SHA256")] 0 (List.replicate 2 PcrLogs.zero)).map
          (fun filled => filled[0]?) = some (some slot) ∧
      slot.PCR.Index = 1 ∧ slot.PCRMatches = ruleSha256.PcrMatches :=
  match (positional_aliasing Decls.std "SHA256" pcrMapTwo [ruleSha256, ruleIndex1]
      [(1, "SHA256"), (0, "SHA256")] (List.replicate 2 PcrLogs.zero) 0 1 "SHA256"
      { Value := "v1", Event := none } (by decide) (by decide)
      (reached_of_all _ _ _ _ (by decide)) (by decide) (by decide)).1 with
  | ⟨_, _, _, slot, hrun, _, hrule, hslot, _, hidx, hflag, _⟩ =>
    ⟨slot, by rw [hrun]; exact congrArg some hslot, hidx,
      by rw [hflag]; exact congrArg PcrRule.PcrMatches (Option.some.inj hrule).symm⟩

/-- C17. Slot assignment by iteration count: in a pass over a legacy bank
(slice and rule list long enough for the visiting order), when the pairs
visited at positions `0..p` all name the bank's algorithm, the pass returns
and slot `p` is written if and only if the legacy bank has an entry for the
PCR index visited at position `p`: with an entry the slot holds that PCR
index, the legacy bank name and the entry's measurement; without one the slot
is left as it was, and no later match moves into it. -/
theorem slot_by_iteration_count (D : Decls) (bank : String) (pcrMap : PcrMap)
    (rules : PcrRules) (enum : List (Int × String)) (slots : List PcrLogs) (p : Nat)
    (mapIndex : Int) (templateBank : String)
    (hs : enum.length ≤ slots.length) (hr : enum.length ≤ rules.length)
    (hreach : Reached D bank enum p)
    (hp : enum[p]? = some (mapIndex, templateBank)) :
    ∃ slots', bankLoop D bank pcrMap rules enum 0 slots = some slots' ∧
      slots'.length = slots.length ∧
      (∀ ex, pcrMap.lookup (D.PcrIndexString mapIndex) = some ex →
        ∃ slot, slots'[p]? = some slot ∧ slot.PCR.Index = mapIndex ∧
          slot.PCR.Bank = bank ∧ slot.Measurement = ex.Value) ∧
      (pcrMap.lookup (D.PcrIndexString mapIndex) = none → slots'[p]? = slots[p]?) := by
  obtain ⟨slots', hrun, hlen⟩ := bankLoop_total D bank pcrMap rules enum 0 slots
    (by omega) (by omega)
  refine ⟨slots', hrun, hlen, ?_, ?_⟩
  · intro ex hlook
    obtain ⟨slot0, rule, -, -, hw⟩ :=
      bankLoop_write D bank pcrMap rules enum 0 slots slots' p mapIndex templateBank ex
        hrun hreach hp hlook
    rw [Nat.zero_add] at hw
    refine ⟨_, hw, ?_, ?_, ?_⟩ <;>
    · simp only [writeSlot]
      cases ex.Event <;> cases rule.EventlogEquals <;> cases rule.EventlogIncludes <;> rfl
  · intro hlook
    have h := bankLoop_skip D bank pcrMap rules enum 0 slots slots' p mapIndex templateBank
      hrun hreach hp hlook
    rw [Nat.zero_add] at h
    exact h

/-- C17, instance: the pass over SHA256 visits PCR 0, PCR 1 and PCR 2; the
legacy bank has no entry for PCR 1, slot 1 stays empty and PCR 2 is in
slot 2. -/
theorem slot_by_iteration_count_witness :
    (pcrMapEvents.lookup (Decls.std.PcrIndexString 1) = none ∧
      (bankLoop Decls.std "SHA256" pcrMapEvents [ruleEquals, ruleEquals, ruleEquals]
        enumThree 0 (List.replicate 3 PcrLogs.zero)).map (fun filled => filled[1]?)
          = some (some PcrLogs.zero)) ∧
    ∃ slots', bankLoop Decls.std "SHA256" pcrMapEvents [ruleEquals, ruleEquals, ruleEquals]
        enumThree 0 (List.replicate 3 PcrLogs.zero) = some slots' ∧
      slots'.length = (List.replicate 3 PcrLogs.zero).length ∧
      (∀ ex, pcrMapEvents.lookup (Decls.std.PcrIndexString 2) = some ex →
        ∃ slot, slots'[2]? = some slot ∧ slot.PCR.Index = 2 ∧
          slot.PCR.Bank = "SHA256" ∧ slot.Measurement = ex.Value) ∧
      (pcrMapEvents.lookup (Decls.std.PcrIndexString 2) = none →
        slots'[2]? = (List.replicate 3 PcrLogs.zero)[2]?) :=
  ⟨by decide,
   slot_by_iteration_count Decls.std "SHA256" pcrMapEvents [ruleEquals, ruleEquals, ruleEquals]
    enumThree (List.replicate 3 PcrLogs.zero) 2 2 "SHA256" (by decide) (by decide)
    (reached_of_all _ _ _ _ (by decide)) (by decide)⟩

/-- C18. Includes projection: in a pass over a legacy bank (slice and rule
list long enough for the visiting order), when position `k` is reached, the
legacy bank has an entry with an event list for the PCR index visited there,
and the rule at position `k` defines an EventlogIncludes spec, the pass
returns and slot `k` has as includes list the per-event translation of the
legacy events, same length and order, whether or not the rule defines an
EventlogEquals spec; when it does, the slot also has the equals block, with
the rule's exclude-tag list and an event list equal to the includes list. -/
theorem includes_projection (D : Decls) (bank : String) (pcrMap : PcrMap) (rules : PcrRules)
    (enum : List (Int × String)) (slots : List PcrLogs) (k : Nat) (mapIndex : Int)
    (templateBank : String) (ex : PcrEx) (events : List EventLog) (rule : PcrRule)
    (hs : enum.length ≤ slots.length) (hr : enum.length ≤ rules.length)
    (hreach : Reached D bank enum k)
    (hk : enum[k]? = some (mapIndex, templateBank))
    (hlook : pcrMap.lookup (D.PcrIndexString mapIndex) = some ex)
    (hev : ex.Event = some events)
    (hrule : rules[k]? = some rule)
    (hinc : rule.EventlogIncludes ≠ none) :
    ∃ slots' slot newEvents,
      bankLoop D bank pcrMap rules enum 0 slots = some slots' ∧
      slots'[k]? = some slot ∧ slot.EventlogIncludes = some newEvents ∧
      newEvents.length = events.length ∧
      (∀ (j : Nat) (old : EventLog), events[j]? = some old →
        newEvents[j]? = some ({ Tags := [old.Label], Measurement := old.Value,
                                TypeID := old.DigestType } : NewEventLog)) ∧
      (∀ spec, rule.EventlogEquals = some spec →
        ∃ block, slot.EventlogEqual = some block ∧ block.Events = slot.EventlogIncludes ∧
          block.ExcludeTags = spec.ExcludingTags) := by
  obtain ⟨slots', hrun, -⟩ := bankLoop_total D bank pcrMap rules enum 0 slots
    (by omega) (by omega)
  obtain ⟨slot0, rule0, -, hr0, hw⟩ :=
    bankLoop_write D bank pcrMap rules enum 0 slots slots' k mapIndex templateBank ex
      hrun hreach hk hlook
  rw [Nat.zero_add] at hr0 hw
  rw [hrule] at hr0
  obtain rfl := Option.some.inj hr0
  obtain ⟨inc, hinc'⟩ : ∃ inc, rule.EventlogIncludes = some inc := by
    cases h : rule.EventlogIncludes with
    | none => exact absurd h hinc
    | some inc => exact ⟨inc, rfl⟩
  have hincl : (writeSlot bank mapIndex ex rule slot0).EventlogIncludes =
      some (newTpmEvents events) := by
    simp only [writeSlot, hev, hinc']
  refine ⟨slots', _, newTpmEvents events, hrun, hw, hincl, ?_, ?_, ?_⟩
  · simp [newTpmEvents]
  · intro j old hj
    simp [newTpmEvents, newEvent, List.getElem?_map, hj]
  · intro spec hspec
    refine ⟨equalsBlock spec events, ?_, ?_, ?_⟩
    · simp only [writeSlot, hev, hspec, hinc']
    · rw [hincl]
      rfl
    · simp only [equalsBlock]
      cases spec.ExcludingTags <;> rfl

/-- C18, instance: a rule with an EventlogIncludes spec and no EventlogEquals
spec; the slot gets the includes list and no equals block.  With a rule
defining both specs the slot has both blocks, with equal event lists. -/
theorem includes_projection_witness :
    ((bankLoop Decls.std "SHA256" pcrMapEvents [ruleIncludes] [(0, "SHA256")] 0
      [PcrLogs.zero]).map (fun filled => filled.map (fun slot => slot.EventlogEqual))
        = some [none] ∧
     (bankLoop Decls.std "SHA256" pcrMapEvents [ruleBoth] [(0, "SHA256")] 0
      [PcrLogs.zero]).map (fun filled => filled.map (fun slot =>
        (slot.EventlogEqual.map (fun block => block.Events), slot.EventlogIncludes)))
        = some [(some (some (newTpmEvents sampleEvents)), some (newTpmEvents sampleEvents))]) ∧
    ∃ slots' slot newEvents,
      bankLoop Decls.std "SHA256" pcrMapEvents [ruleIncludes] [(0, "SHA256")] 0
        [PcrLogs.zero] = some slots' ∧
      slots'[0]? = some slot ∧ slot.EventlogIncludes = some newEvents ∧
      newEvents.length = sampleEvents.length ∧
      (∀ (j : Nat) (old : EventLog), sampleEvents[j]? = some old →
        newEvents[j]? = some ({ Tags := [old.Label], Measurement := old.Value,
                                TypeID := old.DigestType } : NewEventLog)) ∧
      (∀ spec, ruleIncludes.EventlogEquals = some spec →
        ∃ block, slot.EventlogEqual = some block ∧ block.Events = slot.EventlogIncludes ∧
          block.ExcludeTags = spec.ExcludingTags) :=
  ⟨by decide,
   includes_projection Decls.std "SHA256" pcrMapEvents [ruleIncludes] [(0, "SHA256")]
    [PcrLogs.zero] 0 0 "SHA256" { Value := "v0", Event := some sampleEvents } sampleEvents
    ruleIncludes (by decide) (by decide) (reached_of_all _ _ _ _ (by decide))
    (by decide) (by decide) (by decide) (by decide) (by decide)⟩

/-- C20. Projection never indexes out of range: for every template, entry
(category and legacy map) and visiting order, the rule index has at most as
many pairs as the category's rule list has rules; in the pass over any legacy
bank every counter value at which `newFlavorPcrs[index]` and `rules[index]`
are accessed is below the size of the rule index, hence below the length of
the pre-sized slice and of the rule list; each pass started at counter 0 on a
slice of that size returns, and so does the projection.  When the template
has no rules for the category the rule index is empty and no access is
made. -/
theorem projection_in_bounds (D : Decls) (ord : RangeOrder) (k : Nat) (e : SignedFlavor)
    (t : FlavorTemplate) :
    (ruleIndex e.Flavor.Meta.Description.FlavorPart t).1.length ≤
      (ruleIndex e.Flavor.Meta.Description.FlavorPart t).2.length ∧
    (∀ (bank : String) (pcrMap : PcrMap),
      ∀ i ∈ accessedIndices D bank pcrMap
          (ord.enum k bank (ruleIndex e.Flavor.Meta.Description.FlavorPart t).1) 0,
        i < (ruleIndex e.Flavor.Meta.Description.FlavorPart t).1.length ∧
        i < (ruleIndex e.Flavor.Meta.Description.FlavorPart t).2.length) ∧
    (∀ (bank : String) (pcrMap : PcrMap) (slots : List PcrLogs),
      slots.length = (ruleIndex e.Flavor.Meta.Description.FlavorPart t).1.length →
      ∃ slots', bankLoop D bank pcrMap (ruleIndex e.Flavor.Meta.Description.FlavorPart t).2
          (ord.enum k bank (ruleIndex e.Flavor.Meta.Description.FlavorPart t).1) 0 slots
            = some slots' ∧ slots'.length = slots.length) ∧
    (∃ logs, projectTemplate D (ord.enum k) e t = some logs ∧
      logs.length = (ruleIndex e.Flavor.Meta.Description.FlavorPart t).1.length) ∧
    (NoSection e.Flavor.Meta.Description.FlavorPart t →
      (ruleIndex e.Flavor.Meta.Description.FlavorPart t).1 = [] ∧
      ∀ (bank : String) (pcrMap : PcrMap),
        accessedIndices D bank pcrMap
          (ord.enum k bank (ruleIndex e.Flavor.Meta.Description.FlavorPart t).1) 0 = []) := by
  have hle : (ruleIndex e.Flavor.Meta.Description.FlavorPart t).1.length ≤
      (ruleIndex e.Flavor.Meta.Description.FlavorPart t).2.length := by
    rw [ruleIndex_fst]
    exact buildPcrsmap_length_le _
  have hlen : ∀ bank : String,
      (ord.enum k bank (ruleIndex e.Flavor.Meta.Description.FlavorPart t).1).length =
        (ruleIndex e.Flavor.Meta.Description.FlavorPart t).1.length :=
    fun bank => (ord.perm k bank _).length_eq
  refine ⟨hle, ?_, ?_, projectTemplate_total D ord k e t, ?_⟩
  · intro bank pcrMap i hi
    have hb := accessedIndices_bound D bank pcrMap _ 0 i hi
    have := hlen bank
    omega
  · intro bank pcrMap slots hslots
    have := hlen bank
    exact bankLoop_total D bank pcrMap _ _ 0 slots (by omega) (by omega)
  · intro hno
    have hnil := ruleIndex_noSection _ _ hno
    refine ⟨by rw [hnil], fun bank pcrMap => ?_⟩
    have hperm := ord.perm k bank (ruleIndex e.Flavor.Meta.Description.FlavorPart t).1
    rw [hnil] at hperm ⊢
    rw [List.perm_nil.1 hperm]
    rfl

/-- C20, instance: a template with two rules and a legacy bank holding both
PCRs, visited in reverse order: the accesses are at the counter values 0 and
1, below the slice length 2; and a template without section makes no
access. -/
theorem projection_in_bounds_witness :
    accessedIndices Decls.std "SHA256" pcrMapTwo
      (RangeOrder.reversed.enum 0 "SHA256"
        (ruleIndex entryTwoPcrs.Flavor.Meta.Description.FlavorPart tplTwoRules).1) 0 = [0, 1] ∧
    (ruleIndex entryTwoPcrs.Flavor.Meta.Description.FlavorPart tplVendor).1 = [] ∧
    ∃ logs, projectTemplate Decls.std (RangeOrder.reversed.enum 0) entryTwoPcrs tplTwoRules
        = some logs ∧
      logs.length = (ruleIndex entryTwoPcrs.Flavor.Meta.Description.FlavorPart tplTwoRules).1.length :=
  ⟨by decide,
   ((projection_in_bounds Decls.std RangeOrder.reversed 0 entryTwoPcrs tplVendor).2.2.2.2
      ⟨fun _ => rfl, fun _ => rfl, fun _ => rfl⟩).1,
   (projection_in_bounds Decls.std RangeOrder.reversed 0 entryTwoPcrs tplTwoRules).2.2.2.1⟩

end FlavorConvert
